import Mathlib

/-!
Shallow embedding of the jcp model-translation core: the Anthropic request
translator and schema sanitizer (package `anthropic`), and the OpenAI
Responses-API translator, parser and stream aggregator (package
`openai`), together with proofs about the properties claimed of them.
-/

set_option maxHeartbeats 1000000

namespace Jcp

/-- A JSON value, as produced by Go's `encoding/json` unmarshalling into
`any`: `null`, booleans, numbers, strings, arrays (`[]any`) and objects
(`map[string]any`).  Numbers are restricted to integers, which covers every
value appearing in this development.  Objects are association lists; all
object values built by the embedded code keep their fields sorted by key,
mirroring the fact that Go maps are unordered and marshal with sorted keys. -/
inductive JValue where
  | null
  | bool (b : Bool)
  | num (n : Int)
  | str (s : String)
  | arr (xs : List JValue)
  | obj (fields : List (String × JValue))

/-- Fields of a JSON object node (Go `map[string]any`). -/
abbrev JFields := List (String × JValue)

/-- Go map read `node[k]`: look a key up in an object's field list. -/
def lookupField : JFields → String → Option JValue
  | [], _ => none
  | (k', v') :: rest, k => if k = k' then some v' else lookupField rest k

/-- Strict lexicographic order on character lists (by code point, which
for valid UTF-8 agrees with Go's byte-wise key order). -/
def charListLt : List Char → List Char → Bool
  | [], [] => false
  | [], _ :: _ => true
  | _ :: _, [] => false
  | a :: as, b :: bs =>
    if a.toNat < b.toNat then true
    else if b.toNat < a.toNat then false
    else charListLt as bs

/-- Strict lexicographic order on strings, Go's sort order for map keys. -/
def strLt (a b : String) : Bool := charListLt a.data b.data

/-- Go map write `node[k] = v` on a key-sorted field list: replaces the
existing binding for `k` or inserts a new one at its sorted position. -/
def insertField : JFields → String → JValue → JFields
  | [], k, v => [(k, v)]
  | (k', v') :: rest, k, v =>
    if strLt k k' then (k, v) :: (k', v') :: rest
    else if k = k' then (k, v) :: rest
    else (k', v') :: insertField rest k v

/-- Go map delete `delete(node, k)`. -/
def eraseField : JFields → String → JFields
  | [], _ => []
  | (k', v') :: rest, k =>
    if k = k' then eraseField rest k else (k', v') :: eraseField rest k

/-- Go map write `node[k] = v`: remove any previous binding for `k`, then
insert the fresh binding at its key-sorted position.  On the key-sorted,
duplicate-free lists Go maps correspond to, this is the unique
representation of the updated map. -/
def setField (f : JFields) (k : String) (v : JValue) : JFields :=
  insertField (eraseField f k) k v

/-- Go `for k, v := range m { node[k] = v }`: write every field of `m`
into `base`.  Go map iteration order is unspecified; writing distinct keys
commutes, so folding in list order is faithful. -/
def mergeFields (base m : JFields) : JFields :=
  m.foldl (fun acc kv => setField acc kv.1 kv.2) base

/-- Hexadecimal digit (lower case), as used by Go's `\u00xx` escapes. -/
def hexDigit (n : Nat) : Char :=
  if n < 10 then Char.ofNat (48 + n) else Char.ofNat (87 + n)

/-- Escaping of one character inside a JSON string, following Go
`encoding/json` with its default HTML escaping: quote and backslash get a
backslash escape, newline, carriage return and tab their short forms,
other control characters a `\u00xx` form, and `<`, `>`, `&`, U+2028 and
U+2029 are HTML-escaped. -/
def escapeChar (c : Char) : String :=
  if c = '"' then "\\\""
  else if c = '\\' then "\\\\"
  else if c = '\n' then "\\n"
  else if c = '\r' then "\\r"
  else if c = '\t' then "\\t"
  else if c.toNat < 0x20 then
    "\\u00" ++ String.mk [hexDigit (c.toNat / 16), hexDigit (c.toNat % 16)]
  else if c = '<' then "\\u003c"
  else if c = '>' then "\\u003e"
  else if c = '&' then "\\u0026"
  else if c.toNat = 0x2028 then "\\u2028"
  else if c.toNat = 0x2029 then "\\u2029"
  else String.singleton c

/-- Go `json.Marshal` of a string value. -/
def encodeString (s : String) : String :=
  "\"" ++ String.join (s.toList.map escapeChar) ++ "\""

mutual

/-- Go `json.Marshal` of a JSON value.  Object fields are emitted in list
order; every object marshalled by the embedded code is built with
key-sorted fields (`setField`), matching the sorted-key output Go produces
for maps. -/
def jsonEncode : JValue → String
  | .null => "null"
  | .bool true => "true"
  | .bool false => "false"
  | .num n => toString n
  | .str s => encodeString s
  | .arr xs => "[" ++ jsonEncodeList xs ++ "]"
  | .obj fs => "\x7b" ++ jsonEncodeFields fs ++ "\x7d"

/-- Comma-separated encoding of array elements. -/
def jsonEncodeList : List JValue → String
  | [] => ""
  | [x] => jsonEncode x
  | x :: y :: rest => jsonEncode x ++ "," ++ jsonEncodeList (y :: rest)

/-- Comma-separated encoding of object fields. -/
def jsonEncodeFields : List (String × JValue) → String
  | [] => ""
  | [(k, v)] => encodeString k ++ ":" ++ jsonEncode v
  | (k, v) :: e :: rest =>
      encodeString k ++ ":" ++ jsonEncode v ++ "," ++ jsonEncodeFields (e :: rest)

end

/-! ### A termination measure for the schema sanitizer

`msize` weighs a JSON value; a field keyed `"const"` carries one extra
unit, paying in advance for the sanitizer's rewrite of `const: v` into
`enum: [v]` (which wraps `v` in a one-element array).  With that extra
unit every sanitizer head-rewriting step is non-increasing, and the values
recursed into are strictly smaller. -/

/-- Weight of a field key: `"const"` pays one extra unit. -/
def keyW (k : String) : Nat := if k = "const" then 2 else 1

mutual

/-- Measure of a JSON value. -/
def msize : JValue → Nat
  | .null => 1
  | .bool _ => 1
  | .num _ => 1
  | .str _ => 1
  | .arr xs => 1 + msizeL xs
  | .obj fs => 1 + msizeF fs

/-- Measure of a list of JSON values. -/
def msizeL : List JValue → Nat
  | [] => 0
  | x :: xs => msize x + msizeL xs

/-- Measure of an object's field list. -/
def msizeF : JFields → Nat
  | [] => 0
  | (k, v) :: rest => keyW k + msize v + msizeF rest

end

theorem msize_pos (v : JValue) : 1 ≤ msize v := by
  cases v <;> simp [msize]

theorem keyW_pos (k : String) : 1 ≤ keyW k := by
  unfold keyW; split <;> omega

theorem lookupField_msize {f : JFields} {k : String} {v : JValue}
    (h : lookupField f k = some v) : keyW k + msize v ≤ msizeF f := by
  induction f with
  | nil => simp [lookupField] at h
  | cons e rest ih =>
    obtain ⟨k', v'⟩ := e
    simp only [lookupField] at h
    by_cases hk : k = k'
    · rw [if_pos hk] at h
      cases h
      subst hk
      simp only [msizeF]
      omega
    · rw [if_neg hk] at h
      have := ih h
      simp only [msizeF]
      have := msize_pos v'
      have := keyW_pos k'
      omega

theorem msizeF_erase_le (f : JFields) (k : String) :
    msizeF (eraseField f k) ≤ msizeF f := by
  induction f with
  | nil => simp [eraseField]
  | cons e rest ih =>
    obtain ⟨k', v'⟩ := e
    simp only [eraseField]
    split
    · simp only [msizeF]
      have := msize_pos v'
      have := keyW_pos k'
      omega
    · simp only [msizeF]; omega

theorem msizeF_erase_lookup {f : JFields} {k : String} {v : JValue}
    (h : lookupField f k = some v) :
    msizeF (eraseField f k) + keyW k + msize v ≤ msizeF f := by
  induction f with
  | nil => simp [lookupField] at h
  | cons e rest ih =>
    obtain ⟨k', v'⟩ := e
    simp only [lookupField] at h
    by_cases hk : k = k'
    · rw [if_pos hk] at h
      cases h
      subst hk
      simp only [eraseField, if_true, eq_self_iff_true]
      simp only [msizeF]
      have := msizeF_erase_le rest k
      omega
    · rw [if_neg hk] at h
      have := ih h
      have hk2 : k ≠ k' := hk
      simp only [eraseField, if_neg hk2, msizeF]
      omega

theorem msizeF_insert_le (f : JFields) (k : String) (v : JValue) :
    msizeF (insertField f k v) ≤ keyW k + msize v + msizeF f := by
  induction f with
  | nil => simp [insertField, msizeF]
  | cons e rest ih =>
    obtain ⟨k', v'⟩ := e
    simp only [insertField]
    split
    · simp only [msizeF]; omega
    · split
      · simp only [msizeF]
        have := msize_pos v'
        have := keyW_pos k'
        omega
      · simp only [msizeF]; omega

theorem msizeF_set_le (f : JFields) (k : String) (v : JValue) :
    msizeF (setField f k v) ≤ keyW k + msize v + msizeF f := by
  unfold setField
  have h1 := msizeF_insert_le (eraseField f k) k v
  have h2 := msizeF_erase_le f k
  omega

theorem msizeF_set_lookup {f : JFields} {k : String} {v' : JValue}
    (h : lookupField f k = some v') (v : JValue) :
    msizeF (setField f k v) + msize v' ≤ msizeF f + msize v := by
  unfold setField
  have h1 := msizeF_insert_le (eraseField f k) k v
  have h2 := msizeF_erase_lookup h
  omega

theorem msizeF_merge_le (m base : JFields) :
    msizeF (mergeFields base m) ≤ msizeF base + msizeF m := by
  induction m generalizing base with
  | nil => simp [mergeFields, msizeF]
  | cons e rest ih =>
    obtain ⟨k, v⟩ := e
    have h1 : mergeFields base ((k, v) :: rest) = mergeFields (setField base k v) rest := by
      simp [mergeFields, List.foldl]
    rw [h1]
    have h2 := ih (setField base k v)
    have h3 := msizeF_set_le base k v
    simp only [msizeF]
    omega

theorem msize_mem_le {x : JValue} {xs : List JValue} (h : x ∈ xs) :
    msize x ≤ msizeL xs := by
  induction xs with
  | nil => simp at h
  | cons y ys ih =>
    rcases List.mem_cons.mp h with h | h
    · subst h; simp only [msizeL]; omega
    · have := ih h
      simp only [msizeL]
      have := msize_pos y
      omega

theorem mem_entry_msize {k : String} {v : JValue} {fs : JFields}
    (h : (k, v) ∈ fs) : keyW k + msize v ≤ msizeF fs := by
  induction fs with
  | nil => simp at h
  | cons e rest ih =>
    obtain ⟨k', v'⟩ := e
    rcases List.mem_cons.mp h with h | h
    · cases h; simp only [msizeF]; omega
    · have := ih h
      simp only [msizeF]
      have := msize_pos v'
      have := keyW_pos k'
      omega

/-! ### Lookup algebra for the field operations -/

theorem lookup_insert_self (f : JFields) (k : String) (v : JValue) :
    lookupField (insertField f k v) k = some v := by
  induction f with
  | nil => simp [insertField, lookupField]
  | cons e rest ih =>
    obtain ⟨k', v'⟩ := e
    simp only [insertField]
    split
    · simp [lookupField]
    · split
      · simp [lookupField]
      · next hlt heq =>
        simp only [lookupField, if_neg heq]
        exact ih

theorem lookup_insert_ne {k k' : String} (h : k ≠ k') (f : JFields) (v : JValue) :
    lookupField (insertField f k' v) k = lookupField f k := by
  induction f with
  | nil => simp [insertField, lookupField, Ne.symm h, h]
  | cons e rest ih =>
    obtain ⟨k'', v''⟩ := e
    simp only [insertField]
    split
    · simp [lookupField, Ne.symm h, h]
    · next hcond =>
      split
      · next heq =>
        subst heq
        simp [lookupField, h]
      · simp only [lookupField]
        split
        · rfl
        · exact ih

theorem lookup_erase_self (f : JFields) (k : String) :
    lookupField (eraseField f k) k = none := by
  induction f with
  | nil => simp [eraseField, lookupField]
  | cons e rest ih =>
    obtain ⟨k', v'⟩ := e
    simp only [eraseField]
    split
    · exact ih
    · next hne =>
      simp only [lookupField, if_neg hne]
      exact ih

theorem lookup_erase_ne {k k' : String} (h : k ≠ k') (f : JFields) :
    lookupField (eraseField f k') k = lookupField f k := by
  induction f with
  | nil => simp [eraseField, lookupField]
  | cons e rest ih =>
    obtain ⟨k'', v''⟩ := e
    simp only [eraseField]
    split
    · next heq =>
      subst heq
      simp only [lookupField, if_neg h]
      exact ih
    · simp only [lookupField]
      split
      · rfl
      · exact ih

theorem lookup_set_self (f : JFields) (k : String) (v : JValue) :
    lookupField (setField f k v) k = some v :=
  lookup_insert_self _ k v

theorem lookup_set_ne {k k' : String} (h : k ≠ k') (f : JFields) (v : JValue) :
    lookupField (setField f k' v) k = lookupField f k := by
  unfold setField
  rw [lookup_insert_ne h, lookup_erase_ne h]

/-! ### The schema sanitizer (`sanitizeSchemaNode` / `sanitizeSchemaForAnthropic`)

Embedding of `src/unnamed/part_001` lines 219-279.  `sanitizeSchemaNode`
mutates one `map[string]any` node: it rewrites `const` to a one-value
`enum`, drops a null `default`, drops `{"type":"null"}` branches from
`anyOf` (inlining a sole survivor), and then recurses into the values of
`properties` and into `items`.  The three head rewrites are split out so
the recursion can be measured. -/

/-- Step `const → enum`: `node["enum"] = []any{val}; delete(node, "const")`. -/
def constStep (f : JFields) : JFields :=
  match lookupField f "const" with
  | some v => eraseField (setField f "enum" (.arr [v])) "const"
  | none => f

/-- Step removing `default: null`. -/
def defaultStep (f : JFields) : JFields :=
  match lookupField f "default" with
  | some .null => eraseField f "default"
  | _ => f

/-- The `anyOf` filter of the Go loop body: a branch survives iff it is an
object whose `type` field is not the string `"null"` (non-object branches
are dropped because only `map[string]any` items are appended). -/
def anyOfKeep (v : JValue) : Option JFields :=
  match v with
  | .obj m =>
    match lookupField m "type" with
    | some (.str s) => if s = "null" then none else some m
    | _ => some m
  | _ => none

/-- Step rewriting `anyOf`: with exactly one surviving branch its fields
are inlined into the node and `anyOf` is deleted; with two or more the
survivors replace the array; with zero survivors (or a non-array `anyOf`)
the node is left untouched. -/
def anyOfStep (f : JFields) : JFields :=
  match lookupField f "anyOf" with
  | some (.arr xs) =>
    match xs.filterMap anyOfKeep with
    | [] => f
    | [m] => mergeFields (eraseField f "anyOf") m
    | m1 :: m2 :: ms => setField f "anyOf" (.arr ((m1 :: m2 :: ms).map .obj))
  | _ => f

/-- The non-recursive part of `sanitizeSchemaNode`, in source order. -/
def headRewrite (f : JFields) : JFields :=
  anyOfStep (defaultStep (constStep f))

theorem msizeF_constStep_le (f : JFields) : msizeF (constStep f) ≤ msizeF f := by
  unfold constStep
  split
  · next v h =>
    have h1 : lookupField (setField f "enum" (JValue.arr [v])) "const" = some v := by
      rw [lookup_set_ne (by decide) f]
      exact h
    have h2 := msizeF_erase_lookup h1
    have h3 := msizeF_set_le f "enum" (JValue.arr [v])
    have h4 : msize (JValue.arr [v]) = 1 + msize v := by
      simp [msize, msizeL]
    have h5 : keyW "const" = 2 := by decide
    have h6 : keyW "enum" = 1 := by decide
    omega
  · exact le_refl _

theorem msizeF_defaultStep_le (f : JFields) : msizeF (defaultStep f) ≤ msizeF f := by
  unfold defaultStep
  split
  · exact msizeF_erase_le f "default"
  · exact le_refl _

theorem anyOfKeep_eq_obj {x : JValue} {m : JFields} (h : anyOfKeep x = some m) :
    x = JValue.obj m := by
  unfold anyOfKeep at h
  split at h
  · next m' =>
    split at h
    · split at h
      · exact absurd h (by simp)
      · cases h; rfl
    · cases h; rfl
  · exact absurd h (by simp)

theorem msizeL_filterMap_anyOfKeep (xs : List JValue) :
    msizeL ((xs.filterMap anyOfKeep).map JValue.obj) ≤ msizeL xs := by
  induction xs with
  | nil => simp [msizeL]
  | cons x rest ih =>
    simp only [List.filterMap_cons]
    cases hk : anyOfKeep x with
    | none =>
      simp only [msizeL]
      have := msize_pos x
      omega
    | some m =>
      have hx := anyOfKeep_eq_obj hk
      subst hx
      simp only [List.map_cons, msizeL]
      omega

theorem msizeF_anyOfStep_le (f : JFields) : msizeF (anyOfStep f) ≤ msizeF f := by
  unfold anyOfStep
  split
  · next xs h =>
    split
    · exact le_refl _
    · next m hm =>
      have hmem : m ∈ xs.filterMap anyOfKeep := by rw [hm]; exact List.mem_singleton.mpr rfl
      obtain ⟨x, hx, hax⟩ := List.mem_filterMap.mp hmem
      have hxo := anyOfKeep_eq_obj hax
      subst hxo
      have h1 : msize (JValue.obj m) ≤ msizeL xs := msize_mem_le hx
      have h2 : msizeF (eraseField f "anyOf") + keyW "anyOf" + msize (JValue.arr xs) ≤ msizeF f :=
        msizeF_erase_lookup h
      have h3 := msizeF_merge_le m (eraseField f "anyOf")
      simp only [msize] at h1 h2
      omega
    · next m1 m2 ms hm =>
      have h3 := msizeF_set_lookup (v := JValue.arr ((m1 :: m2 :: ms).map JValue.obj)) h
      have h4 : msizeL ((m1 :: m2 :: ms).map JValue.obj) ≤ msizeL xs := by
        rw [← hm]
        exact msizeL_filterMap_anyOfKeep xs
      simp only [msize] at h3
      omega
  · exact le_refl _

theorem msizeF_headRewrite_le (f : JFields) : msizeF (headRewrite f) ≤ msizeF f := by
  unfold headRewrite
  calc msizeF (anyOfStep (defaultStep (constStep f)))
      ≤ msizeF (defaultStep (constStep f)) := msizeF_anyOfStep_le _
    _ ≤ msizeF (constStep f) := msizeF_defaultStep_le _
    _ ≤ msizeF f := msizeF_constStep_le f

theorem lookup_headRewrite_lt {f : JFields} {k : String} {v : JValue}
    (h : lookupField (headRewrite f) k = some v) : msize v < msizeF f := by
  have h1 := lookupField_msize h
  have h2 := msizeF_headRewrite_le f
  have h3 := keyW_pos k
  omega

theorem dec_items {f mi : JFields}
    (hi : lookupField (headRewrite f) "items" = some (JValue.obj mi)) :
    msizeF mi < msizeF f := by
  have := lookup_headRewrite_lt hi
  simp only [msize] at this
  omega

theorem dec_propsList {f props : JFields}
    (hp : lookupField (headRewrite f) "properties" = some (JValue.obj props)) :
    msizeF props < msizeF f := by
  have := lookup_headRewrite_lt hp
  simp only [msize] at this
  omega

mutual

/-- Recursive part of `sanitizeSchemaNode`: head-rewrite the node, then
sanitize every object-valued entry of its `properties` object and the
object under `items`.  (Go mutates the nested maps in place; writing the
rewritten values back with `setField` is the functional equivalent.) -/
def sanitizeFields (f : JFields) : JFields :=
  match hp : lookupField (headRewrite f) "properties" with
  | some (.obj props) =>
    let f4 := setField (headRewrite f) "properties" (.obj (sanitizePropsList props))
    match hi : lookupField (headRewrite f) "items" with
    | some (.obj mi) => setField f4 "items" (.obj (sanitizeFields mi))
    | _ => f4
  | _ =>
    match hi : lookupField (headRewrite f) "items" with
    | some (.obj mi) => setField (headRewrite f) "items" (.obj (sanitizeFields mi))
    | _ => headRewrite f
termination_by msizeF f
decreasing_by
  · exact dec_propsList hp
  · exact dec_items hi
  · exact dec_items hi

/-- Sanitization of the values of a `properties` object: object values
are sanitized recursively, other values are kept. -/
def sanitizePropsList : JFields → JFields
  | [] => []
  | (k, .obj m) :: rest => (k, .obj (sanitizeFields m)) :: sanitizePropsList rest
  | e :: rest => e :: sanitizePropsList rest
termination_by l => msizeF l
decreasing_by
  · simp only [msizeF, msize]
    have := keyW_pos k
    omega
  · simp only [msizeF, msize]
    have := keyW_pos k
    omega
  · obtain ⟨a, b⟩ := e
    simp only [msizeF]
    have := keyW_pos a
    have := msize_pos b
    omega

end

/-- The sanitizer entry point `sanitizeSchemaForAnthropic`, at the level of
parsed JSON documents: a schema that unmarshals into `map[string]any` (an
object) is sanitized; any other document makes `json.Unmarshal` fail and
is returned unchanged. -/
def sanitizeSchemaForAnthropic (v : JValue) : JValue :=
  match v with
  | .obj fs => .obj (sanitizeFields fs)
  | other => other

/-! ### Canonical documents and anyOf-freeness

A `JValue` represents a Go `map[string]any` tree canonically when every
object's field list is strictly key-sorted (Go maps are unordered and
duplicate-free; `json.Unmarshal` output corresponds exactly to these
canonical values).  `anyOfFree` says no object node carries an `anyOf`
key. -/

/-- Keys of a field list are strictly increasing. -/
def keysSortedB (f : JFields) : Bool :=
  decide (f.Pairwise (fun a b => strLt a.1 b.1 = true))

mutual

/-- The value is a canonical (strictly key-sorted) document. -/
def canonV : JValue → Bool
  | .obj fs => keysSortedB fs && canonF fs
  | .arr xs => canonL xs
  | _ => true

/-- All values of the list are canonical. -/
def canonL : List JValue → Bool
  | [] => true
  | x :: xs => canonV x && canonL xs

/-- All field values are canonical. -/
def canonF : JFields → Bool
  | [] => true
  | (_, v) :: rest => canonV v && canonF rest

end

mutual

/-- No object node of the value carries an `anyOf` key. -/
def anyOfFreeV : JValue → Bool
  | .obj fs => anyOfFreeF fs
  | .arr xs => anyOfFreeL xs
  | _ => true

/-- No object node inside any list element carries an `anyOf` key. -/
def anyOfFreeL : List JValue → Bool
  | [] => true
  | x :: xs => anyOfFreeV x && anyOfFreeL xs

/-- The field list has no `anyOf` key, at this node or below. -/
def anyOfFreeF : JFields → Bool
  | [] => true
  | (k, v) :: rest => decide (k ≠ "anyOf") && anyOfFreeV v && anyOfFreeF rest

end

theorem lookup_of_anyOfFree {f : JFields} (h : anyOfFreeF f = true) :
    lookupField f "anyOf" = none := by
  induction f with
  | nil => simp [lookupField]
  | cons e rest ih =>
    obtain ⟨k, v⟩ := e
    simp only [anyOfFreeF, Bool.and_eq_true, decide_eq_true_eq] at h
    simp only [lookupField, if_neg (Ne.symm h.1.1)]
    exact ih h.2

theorem anyOfFree_lookup {f : JFields} {k : String} {v : JValue}
    (h : anyOfFreeF f = true) (hl : lookupField f k = some v) :
    anyOfFreeV v = true := by
  induction f with
  | nil => simp [lookupField] at hl
  | cons e rest ih =>
    obtain ⟨k', v'⟩ := e
    simp only [anyOfFreeF, Bool.and_eq_true] at h
    simp only [lookupField] at hl
    split at hl
    · cases hl; exact h.1.2
    · exact ih h.2 hl

theorem canon_lookup {f : JFields} {k : String} {v : JValue}
    (h : canonF f = true) (hl : lookupField f k = some v) :
    canonV v = true := by
  induction f with
  | nil => simp [lookupField] at hl
  | cons e rest ih =>
    obtain ⟨k', v'⟩ := e
    simp only [canonF, Bool.and_eq_true] at h
    simp only [lookupField] at hl
    split at hl
    · cases hl; exact h.1
    · exact ih h.2 hl

theorem canon_mem {props : JFields} {k : String} {v : JValue}
    (h : canonF props = true) (hm : (k, v) ∈ props) : canonV v = true := by
  induction props with
  | nil => simp at hm
  | cons e rest ih =>
    obtain ⟨k', v'⟩ := e
    simp only [canonF, Bool.and_eq_true] at h
    rcases List.mem_cons.mp hm with hm | hm
    · cases hm; exact h.1
    · exact ih h.2 hm

theorem char_toNat_inj {a b : Char} (h : a.toNat = b.toNat) : a = b := by
  apply Char.ext
  exact UInt32.ext h

theorem charListLt_irrefl (as : List Char) : charListLt as as = false := by
  induction as with
  | nil => rfl
  | cons a rest ih =>
    simp only [charListLt, lt_irrefl, if_false, if_neg (lt_irrefl a.toNat)]
    exact ih

theorem charListLt_trans {as bs cs : List Char} (h1 : charListLt as bs = true)
    (h2 : charListLt bs cs = true) : charListLt as cs = true := by
  induction as generalizing bs cs with
  | nil =>
    cases bs with
    | nil => simp [charListLt] at h1
    | cons b bs2 =>
      cases cs with
      | nil => simp [charListLt] at h2
      | cons c cs2 => rfl
  | cons a as2 ih =>
    cases bs with
    | nil => simp [charListLt] at h1
    | cons b bs2 =>
      cases cs with
      | nil => simp [charListLt] at h2
      | cons c cs2 =>
        simp only [charListLt] at h1 h2 ⊢
        by_cases hab : a.toNat < b.toNat
        · by_cases hbc : b.toNat < c.toNat
          · rw [if_pos (by omega)]
          · rw [if_neg hbc] at h2
            split at h2
            · simp at h2
            · next hcb => rw [if_pos (by omega)]
        · rw [if_neg hab] at h1
          split at h1
          · simp at h1
          · next hba =>
            by_cases hbc : b.toNat < c.toNat
            · rw [if_pos (by omega)]
            · rw [if_neg hbc] at h2
              split at h2
              · simp at h2
              · next hcb =>
                rw [if_neg (by omega), if_neg (by omega)]
                exact ih h1 h2

theorem charListLt_total {as bs : List Char} (h1 : charListLt as bs = false)
    (h2 : charListLt bs as = false) : as = bs := by
  induction as generalizing bs with
  | nil =>
    cases bs with
    | nil => rfl
    | cons b bs2 => simp [charListLt] at h1
  | cons a as2 ih =>
    cases bs with
    | nil => simp [charListLt] at h2
    | cons b bs2 =>
      simp only [charListLt] at h1 h2
      by_cases hab : a.toNat < b.toNat
      · rw [if_pos hab] at h1; simp at h1
      · by_cases hba : b.toNat < a.toNat
        · rw [if_pos hba] at h2; simp at h2
        · rw [if_neg hab, if_neg hba] at h1
          rw [if_neg hba, if_neg hab] at h2
          have : a = b := char_toNat_inj (by omega)
          rw [this, ih h1 h2]

theorem strLt_trans {a b c : String} (h1 : strLt a b = true)
    (h2 : strLt b c = true) : strLt a c = true :=
  charListLt_trans h1 h2

theorem strLt_irrefl (a : String) : strLt a a = false :=
  charListLt_irrefl a.data

theorem strLt_ne {a b : String} (h : strLt a b = true) : a ≠ b := by
  intro he
  subst he
  rw [strLt_irrefl] at h
  exact absurd h (by simp)

theorem strLt_of_not {a b : String} (h1 : strLt a b = false) (h2 : a ≠ b) :
    strLt b a = true := by
  cases h3 : strLt b a with
  | true => rfl
  | false =>
    exact absurd (String.ext (charListLt_total h1 h3)) h2

theorem strLt_asymm {a b : String} (h : strLt a b = true) : strLt b a = false := by
  cases h2 : strLt b a with
  | false => rfl
  | true =>
    have := strLt_trans h h2
    rw [strLt_irrefl] at this
    exact absurd this (by simp)

/-- Short name for the key ordering on fields. -/
abbrev keyLT (a b : String × JValue) : Prop := strLt a.1 b.1 = true

theorem mem_insertField {e : String × JValue} {f : JFields} {k : String} {v : JValue}
    (h : e ∈ insertField f k v) : e = (k, v) ∨ e ∈ f := by
  induction f with
  | nil => simp [insertField] at h; exact Or.inl h
  | cons e' rest ih =>
    simp only [insertField] at h
    split at h
    · rcases List.mem_cons.mp h with h | h
      · exact Or.inl h
      · exact Or.inr h
    · split at h
      · rcases List.mem_cons.mp h with h | h
        · exact Or.inl h
        · exact Or.inr (List.mem_cons_of_mem _ h)
      · rcases List.mem_cons.mp h with h | h
        · exact Or.inr (h ▸ List.mem_cons_self _ _)
        · rcases ih h with h | h
          · exact Or.inl h
          · exact Or.inr (List.mem_cons_of_mem _ h)

theorem mem_eraseField {e : String × JValue} {f : JFields} {k : String}
    (h : e ∈ eraseField f k) : e ∈ f := by
  induction f with
  | nil => simp [eraseField] at h
  | cons e' rest ih =>
    simp only [eraseField] at h
    split at h
    · exact List.mem_cons_of_mem _ (ih h)
    · rcases List.mem_cons.mp h with h | h
      · exact h ▸ List.mem_cons_self _ _
      · exact List.mem_cons_of_mem _ (ih h)

theorem pairwise_insertField {f : JFields} (hs : f.Pairwise keyLT)
    (k : String) (v : JValue) : (insertField f k v).Pairwise keyLT := by
  induction f with
  | nil => simp [insertField]
  | cons e rest ih =>
    obtain ⟨k', v'⟩ := e
    rw [List.pairwise_cons] at hs
    simp only [insertField]
    split
    · next hlt =>
      rw [List.pairwise_cons]
      constructor
      · intro a ha
        rcases List.mem_cons.mp ha with ha | ha
        · subst ha; exact hlt
        · exact strLt_trans hlt (hs.1 a ha)
      · rw [List.pairwise_cons]
        exact hs
    · split
      · next hlt heq =>
        subst heq
        rw [List.pairwise_cons]
        exact ⟨hs.1, hs.2⟩
      · next hlt heq =>
        rw [List.pairwise_cons]
        constructor
        · intro a ha
          rcases mem_insertField ha with ha | ha
          · subst ha
            have hf : strLt k k' = false := by
              cases hv : strLt k k' with
              | false => rfl
              | true => exact absurd hv hlt
            exact strLt_of_not hf heq
          · exact hs.1 a ha
        · exact ih hs.2

theorem pairwise_eraseField {f : JFields} (hs : f.Pairwise keyLT)
    (k : String) : (eraseField f k).Pairwise keyLT := by
  induction f with
  | nil => simp [eraseField]
  | cons e rest ih =>
    obtain ⟨k', v'⟩ := e
    rw [List.pairwise_cons] at hs
    simp only [eraseField]
    split
    · exact ih hs.2
    · rw [List.pairwise_cons]
      exact ⟨fun a ha => hs.1 a (mem_eraseField ha), ih hs.2⟩

theorem pairwise_setField {f : JFields} (hs : f.Pairwise keyLT)
    (k : String) (v : JValue) : (setField f k v).Pairwise keyLT :=
  pairwise_insertField (pairwise_eraseField hs k) k v

theorem eraseField_absent {f : JFields} {k : String}
    (h : ∀ e ∈ f, e.1 ≠ k) : eraseField f k = f := by
  induction f with
  | nil => rfl
  | cons e rest ih =>
    obtain ⟨k', v'⟩ := e
    simp only [eraseField]
    rw [if_neg, ih]
    · intro a ha; exact h a (List.mem_cons_of_mem _ ha)
    · intro hk; exact h (k', v') (List.mem_cons_self _ _) hk.symm

theorem insertField_front {f : JFields} {k : String}
    (h : ∀ e ∈ f, strLt k e.1 = true) (v : JValue) : insertField f k v = (k, v) :: f := by
  cases f with
  | nil => rfl
  | cons e rest =>
    obtain ⟨k', v'⟩ := e
    simp only [insertField]
    rw [if_pos (h (k', v') (List.mem_cons_self _ _))]

theorem setField_self {f : JFields} (hs : f.Pairwise keyLT) {k : String}
    {v : JValue} (hl : lookupField f k = some v) : setField f k v = f := by
  induction f with
  | nil => simp [lookupField] at hl
  | cons e rest ih =>
    obtain ⟨k', v'⟩ := e
    rw [List.pairwise_cons] at hs
    simp only [lookupField] at hl
    unfold setField
    by_cases hk : k = k'
    · rw [if_pos hk] at hl
      cases hl
      subst hk
      have he : eraseField ((k, v) :: rest) k = rest := by
        simp only [eraseField, if_true, eq_self_iff_true]
        exact eraseField_absent (fun a ha => Ne.symm (strLt_ne (hs.1 a ha)))
      rw [he, insertField_front (fun a ha => hs.1 a ha)]
    · rw [if_neg hk] at hl
      have hk2 : strLt k' k = true := by
        have hmem : (k, v) ∈ rest := by
          clear ih hs
          induction rest with
          | nil => simp [lookupField] at hl
          | cons e2 r2 ih2 =>
            obtain ⟨k2, v2⟩ := e2
            simp only [lookupField] at hl
            split at hl
            · next heq => cases hl; exact heq ▸ List.mem_cons_self _ _
            · exact List.mem_cons_of_mem _ (ih2 hl)
        exact hs.1 (k, v) hmem
      have hkk : strLt k k' = false := strLt_asymm hk2
      simp only [eraseField, if_neg (fun h : k = k' => hk h)]
      simp only [insertField, hkk, Bool.false_eq_true, if_false, if_neg hk]
      have := ih hs.2 hl
      unfold setField at this
      rw [this]

theorem anyOfFree_mem {props : JFields} {k : String} {v : JValue}
    (h : anyOfFreeF props = true) (hm : (k, v) ∈ props) : anyOfFreeV v = true := by
  induction props with
  | nil => simp at hm
  | cons e rest ih =>
    obtain ⟨k', v'⟩ := e
    simp only [anyOfFreeF, Bool.and_eq_true] at h
    rcases List.mem_cons.mp hm with hm | hm
    · cases hm; exact h.1.2
    · exact ih h.2 hm

/-! ### Behaviour of the head rewrites on already-sanitized nodes -/

theorem lookup_constStep_ne {k : String} (h1 : k ≠ "const") (h2 : k ≠ "enum")
    (f : JFields) : lookupField (constStep f) k = lookupField f k := by
  unfold constStep
  split
  · rw [lookup_erase_ne h1, lookup_set_ne h2]
  · rfl

theorem lookup_defaultStep_ne {k : String} (h : k ≠ "default")
    (f : JFields) : lookupField (defaultStep f) k = lookupField f k := by
  unfold defaultStep
  split
  · rw [lookup_erase_ne h]
  · rfl

theorem lookup_constStep_const (f : JFields) :
    lookupField (constStep f) "const" = none := by
  unfold constStep
  split
  · exact lookup_erase_self _ _
  · next h => exact h

theorem lookup_defaultStep_default {f : JFields} {v : JValue}
    (h : lookupField (defaultStep f) "default" = some v) : v ≠ JValue.null := by
  unfold defaultStep at h
  split at h
  · rw [lookup_erase_self] at h
    exact absurd h (by simp)
  · next hm =>
    intro hv
    subst hv
    exact hm h

theorem constStep_of_none {f : JFields} (h : lookupField f "const" = none) :
    constStep f = f := by
  unfold constStep
  rw [h]

theorem defaultStep_of_notnull {f : JFields}
    (h : ∀ v, lookupField f "default" = some v → v ≠ JValue.null) :
    defaultStep f = f := by
  unfold defaultStep
  split
  · next hm => exact absurd rfl (h _ hm)
  · rfl

theorem anyOfStep_of_none {f : JFields} (h : lookupField f "anyOf" = none) :
    anyOfStep f = f := by
  unfold anyOfStep
  rw [h]

theorem pairwise_constStep {f : JFields} (hs : f.Pairwise keyLT) :
    (constStep f).Pairwise keyLT := by
  unfold constStep
  split
  · exact pairwise_eraseField (pairwise_setField hs _ _) _
  · exact hs

theorem pairwise_defaultStep {f : JFields} (hs : f.Pairwise keyLT) :
    (defaultStep f).Pairwise keyLT := by
  unfold defaultStep
  split
  · exact pairwise_eraseField hs _
  · exact hs

/-! ### Unfolding `sanitizeFields` by cases on the two lookups -/

theorem sf_eq_pi {f props mi : JFields}
    (hp : lookupField (headRewrite f) "properties" = some (.obj props))
    (hi : lookupField (headRewrite f) "items" = some (.obj mi)) :
    sanitizeFields f =
      setField (setField (headRewrite f) "properties" (.obj (sanitizePropsList props)))
        "items" (.obj (sanitizeFields mi)) := by
  conv_lhs => rw [sanitizeFields.eq_def]
  split
  · next props2 hp2 =>
    rw [hp] at hp2
    cases hp2
    split
    · next mi2 hi2 =>
      rw [hi] at hi2
      cases hi2
      rfl
    · next hx => exact (hx mi hi).elim
  · next hx => exact (hx props hp).elim

theorem sf_eq_p {f props : JFields}
    (hp : lookupField (headRewrite f) "properties" = some (.obj props))
    (hi : ∀ m, lookupField (headRewrite f) "items" ≠ some (.obj m)) :
    sanitizeFields f =
      setField (headRewrite f) "properties" (.obj (sanitizePropsList props)) := by
  conv_lhs => rw [sanitizeFields.eq_def]
  split
  · next props2 hp2 =>
    rw [hp] at hp2
    cases hp2
    split
    · next mi2 hi2 => exact (hi mi2 hi2).elim
    · rfl
  · next hx => exact (hx props hp).elim

theorem sf_eq_i {f mi : JFields}
    (hp : ∀ m, lookupField (headRewrite f) "properties" ≠ some (.obj m))
    (hi : lookupField (headRewrite f) "items" = some (.obj mi)) :
    sanitizeFields f = setField (headRewrite f) "items" (.obj (sanitizeFields mi)) := by
  conv_lhs => rw [sanitizeFields.eq_def]
  split
  · next props2 hp2 => exact (hp props2 hp2).elim
  · split
    · next mi2 hi2 =>
      rw [hi] at hi2
      cases hi2
      rfl
    · next hx => exact (hx mi hi).elim

theorem sf_eq_none {f : JFields}
    (hp : ∀ m, lookupField (headRewrite f) "properties" ≠ some (.obj m))
    (hi : ∀ m, lookupField (headRewrite f) "items" ≠ some (.obj m)) :
    sanitizeFields f = headRewrite f := by
  conv_lhs => rw [sanitizeFields.eq_def]
  split
  · next props2 hp2 => exact (hp props2 hp2).elim
  · split
    · next mi2 hi2 => exact (hi mi2 hi2).elim
    · rfl

theorem lookup_obj_cases (f : JFields) (k : String) :
    (∃ m, lookupField f k = some (.obj m)) ∨
      (∀ m, lookupField f k ≠ some (.obj m)) := by
  cases h : lookupField f k with
  | none => exact Or.inr (fun m hm => by simp at hm)
  | some v =>
    cases v with
    | obj m => exact Or.inl ⟨m, rfl⟩
    | null => exact Or.inr (fun m hm => by simp at hm)
    | bool b => exact Or.inr (fun m hm => by simp at hm)
    | num n => exact Or.inr (fun m hm => by simp at hm)
    | str s => exact Or.inr (fun m hm => by simp at hm)
    | arr xs => exact Or.inr (fun m hm => by simp at hm)

theorem spl_nil : sanitizePropsList [] = [] := by
  rw [sanitizePropsList.eq_def]

theorem spl_cons_obj (k : String) (m : JFields) (rest : JFields) :
    sanitizePropsList ((k, .obj m) :: rest) =
      (k, .obj (sanitizeFields m)) :: sanitizePropsList rest := by
  conv_lhs => rw [sanitizePropsList.eq_def]

theorem spl_cons_other (k : String) (v : JValue) (rest : JFields)
    (hv : ∀ m, v ≠ .obj m) :
    sanitizePropsList ((k, v) :: rest) = (k, v) :: sanitizePropsList rest := by
  cases v with
  | obj m => exact ((hv m) rfl).elim
  | null =>
    conv_lhs => rw [sanitizePropsList.eq_def]
  | bool b =>
    conv_lhs => rw [sanitizePropsList.eq_def]
  | num n =>
    conv_lhs => rw [sanitizePropsList.eq_def]
  | str s =>
    conv_lhs => rw [sanitizePropsList.eq_def]
  | arr xs =>
    conv_lhs => rw [sanitizePropsList.eq_def]

/-- A node all of whose sanitizer-relevant keys are already in sanitized
form, and whose `properties` values and `items` value are fixpoints of the
recursion, is itself a fixpoint of `sanitizeFields`. -/
theorem sanitizeFields_fixpoint {r : JFields}
    (hsr : r.Pairwise keyLT)
    (hcr : lookupField r "const" = none)
    (hdr : ∀ v, lookupField r "default" = some v → v ≠ JValue.null)
    (har : lookupField r "anyOf" = none)
    (hpr : ∀ props, lookupField r "properties" = some (.obj props) →
      sanitizePropsList props = props)
    (hir : ∀ mi, lookupField r "items" = some (.obj mi) → sanitizeFields mi = mi) :
    sanitizeFields r = r := by
  have hHRr : headRewrite r = r := by
    unfold headRewrite
    rw [constStep_of_none hcr, defaultStep_of_notnull hdr, anyOfStep_of_none har]
  rcases lookup_obj_cases r "properties" with ⟨props, hp⟩ | hp
  · rcases lookup_obj_cases r "items" with ⟨mi, hi⟩ | hi
    · rw [sf_eq_pi (by rw [hHRr]; exact hp) (by rw [hHRr]; exact hi)]
      rw [hHRr, hpr props hp, hir mi hi, setField_self hsr hp, setField_self hsr hi]
    · rw [sf_eq_p (by rw [hHRr]; exact hp) (by rw [hHRr]; exact hi)]
      rw [hHRr, hpr props hp, setField_self hsr hp]
  · rcases lookup_obj_cases r "items" with ⟨mi, hi⟩ | hi
    · rw [sf_eq_i (by rw [hHRr]; exact hp) (by rw [hHRr]; exact hi)]
      rw [hHRr, hir mi hi, setField_self hsr hi]
    · rw [sf_eq_none (by rw [hHRr]; exact hp) (by rw [hHRr]; exact hi)]
      exact hHRr

/-- Idempotence of the properties pass, given idempotence of the recursion
on every canonical anyOf-free object value of the list. -/
theorem sanitizePropsList_idem {N : Nat}
    (ihm : ∀ m : JFields, msizeF m < N → keysSortedB m = true → canonF m = true →
      anyOfFreeF m = true → sanitizeFields (sanitizeFields m) = sanitizeFields m)
    (props : JFields) (hsz : msizeF props < N) (hc : canonF props = true)
    (ha : anyOfFreeF props = true) :
    sanitizePropsList (sanitizePropsList props) = sanitizePropsList props := by
  induction props with
  | nil => rw [spl_nil, spl_nil]
  | cons e rest ih =>
    obtain ⟨k, v⟩ := e
    have hkw := keyW_pos k
    have hvp := msize_pos v
    have hsz2 : msizeF rest < N := by
      simp only [msizeF] at hsz
      omega
    simp only [canonF, Bool.and_eq_true] at hc
    simp only [anyOfFreeF, Bool.and_eq_true] at ha
    have hrest := ih hsz2 hc.2 ha.2
    cases v with
    | obj m =>
      rw [spl_cons_obj, spl_cons_obj]
      have hcv := hc.1
      simp only [canonV, Bool.and_eq_true] at hcv
      have hav := ha.1.2
      simp only [anyOfFreeV] at hav
      have hszm : msizeF m < N := by
        simp only [msizeF, msize] at hsz
        omega
      rw [ihm m hszm hcv.1 hcv.2 hav, hrest]
    | null =>
      rw [spl_cons_other _ _ _ (fun m h => JValue.noConfusion h),
        spl_cons_other _ _ _ (fun m h => JValue.noConfusion h), hrest]
    | bool b =>
      rw [spl_cons_other _ _ _ (fun m h => JValue.noConfusion h),
        spl_cons_other _ _ _ (fun m h => JValue.noConfusion h), hrest]
    | num n =>
      rw [spl_cons_other _ _ _ (fun m h => JValue.noConfusion h),
        spl_cons_other _ _ _ (fun m h => JValue.noConfusion h), hrest]
    | str s =>
      rw [spl_cons_other _ _ _ (fun m h => JValue.noConfusion h),
        spl_cons_other _ _ _ (fun m h => JValue.noConfusion h), hrest]
    | arr xs =>
      rw [spl_cons_other _ _ _ (fun m h => JValue.noConfusion h),
        spl_cons_other _ _ _ (fun m h => JValue.noConfusion h), hrest]

/-- Core idempotence: on canonical documents without any `anyOf` key,
`sanitizeSchemaNode` is idempotent. -/
theorem sanitizeFields_idem : ∀ (n : Nat) (f : JFields), msizeF f ≤ n →
    keysSortedB f = true → canonF f = true → anyOfFreeF f = true →
    sanitizeFields (sanitizeFields f) = sanitizeFields f := by
  intro n
  induction n using Nat.strong_induction_on with
  | _ n ih =>
    intro f hn hsB hc ha
    have hs : f.Pairwise keyLT := of_decide_eq_true hsB
    have IH : ∀ m : JFields, msizeF m < msizeF f → keysSortedB m = true →
        canonF m = true → anyOfFreeF m = true →
        sanitizeFields (sanitizeFields m) = sanitizeFields m := by
      intro m hm
      exact ih (msizeF m) (by omega) m (le_refl _)
    have hanyf : lookupField f "anyOf" = none := lookup_of_anyOfFree ha
    have hag : lookupField (defaultStep (constStep f)) "anyOf" = none := by
      rw [lookup_defaultStep_ne (by decide), lookup_constStep_ne (by decide) (by decide)]
      exact hanyf
    have hHR : headRewrite f = defaultStep (constStep f) := by
      unfold headRewrite
      exact anyOfStep_of_none hag
    have hsg : (defaultStep (constStep f)).Pairwise keyLT :=
      pairwise_defaultStep (pairwise_constStep hs)
    have hcg : lookupField (defaultStep (constStep f)) "const" = none := by
      rw [lookup_defaultStep_ne (by decide)]
      exact lookup_constStep_const f
    have hdg : ∀ v, lookupField (defaultStep (constStep f)) "default" = some v →
        v ≠ JValue.null := fun v hv => lookup_defaultStep_default hv
    have hpropsg : lookupField (defaultStep (constStep f)) "properties" =
        lookupField f "properties" := by
      rw [lookup_defaultStep_ne (by decide), lookup_constStep_ne (by decide) (by decide)]
    have hitemsg : lookupField (defaultStep (constStep f)) "items" =
        lookupField f "items" := by
      rw [lookup_defaultStep_ne (by decide), lookup_constStep_ne (by decide) (by decide)]
    rcases lookup_obj_cases (defaultStep (constStep f)) "properties" with ⟨props, hp⟩ | hp
    case _ =>
      have hpf : lookupField f "properties" = some (.obj props) := by
        rw [← hpropsg]; exact hp
      have hcp := canon_lookup hc hpf
      simp only [canonV, Bool.and_eq_true] at hcp
      have hap := anyOfFree_lookup ha hpf
      simp only [anyOfFreeV] at hap
      have hszp : msizeF props < msizeF f := dec_propsList (by rw [hHR]; exact hp)
      have hplidem : sanitizePropsList (sanitizePropsList props) = sanitizePropsList props :=
        sanitizePropsList_idem IH props hszp hcp.2 hap
      rcases lookup_obj_cases (defaultStep (constStep f)) "items" with ⟨mi, hi⟩ | hi
      case _ =>
        have hif : lookupField f "items" = some (.obj mi) := by
          rw [← hitemsg]; exact hi
        have hcm := canon_lookup hc hif
        simp only [canonV, Bool.and_eq_true] at hcm
        have ham := anyOfFree_lookup ha hif
        simp only [anyOfFreeV] at ham
        have hszi : msizeF mi < msizeF f := dec_items (by rw [hHR]; exact hi)
        have hmiidem := IH mi hszi hcm.1 hcm.2 ham
        have hr : sanitizeFields f =
            setField (setField (defaultStep (constStep f)) "properties"
              (.obj (sanitizePropsList props))) "items" (.obj (sanitizeFields mi)) := by
          have h0 := sf_eq_pi (f := f) (by rw [hHR]; exact hp) (by rw [hHR]; exact hi)
          rw [hHR] at h0
          exact h0
        rw [hr]
        apply sanitizeFields_fixpoint
        · exact pairwise_setField (pairwise_setField hsg _ _) _ _
        · rw [lookup_set_ne (by decide), lookup_set_ne (by decide)]; exact hcg
        · intro v hv
          rw [lookup_set_ne (by decide), lookup_set_ne (by decide)] at hv
          exact hdg v hv
        · rw [lookup_set_ne (by decide), lookup_set_ne (by decide)]; exact hag
        · intro props2 hp2
          rw [lookup_set_ne (by decide), lookup_set_self] at hp2
          have h2 : sanitizePropsList props = props2 := by
            injection hp2 with h3
            exact JValue.obj.inj h3
          rw [← h2]
          exact hplidem
        · intro mi2 hi2
          rw [lookup_set_self] at hi2
          have h2 : sanitizeFields mi = mi2 := by
            injection hi2 with h3
            exact JValue.obj.inj h3
          rw [← h2]
          exact hmiidem
      case _ =>
        have hr : sanitizeFields f =
            setField (defaultStep (constStep f)) "properties"
              (.obj (sanitizePropsList props)) := by
          have h0 := sf_eq_p (f := f) (by rw [hHR]; exact hp)
            (by rw [hHR]; exact hi)
          rw [hHR] at h0
          exact h0
        rw [hr]
        apply sanitizeFields_fixpoint
        · exact pairwise_setField hsg _ _
        · rw [lookup_set_ne (by decide)]; exact hcg
        · intro v hv
          rw [lookup_set_ne (by decide)] at hv
          exact hdg v hv
        · rw [lookup_set_ne (by decide)]; exact hag
        · intro props2 hp2
          rw [lookup_set_self] at hp2
          have h2 : sanitizePropsList props = props2 := by
            injection hp2 with h3
            exact JValue.obj.inj h3
          rw [← h2]
          exact hplidem
        · intro mi2 hi2
          rw [lookup_set_ne (by decide)] at hi2
          exact (hi mi2 hi2).elim
    case _ =>
      rcases lookup_obj_cases (defaultStep (constStep f)) "items" with ⟨mi, hi⟩ | hi
      case _ =>
        have hif : lookupField f "items" = some (.obj mi) := by
          rw [← hitemsg]; exact hi
        have hcm := canon_lookup hc hif
        simp only [canonV, Bool.and_eq_true] at hcm
        have ham := anyOfFree_lookup ha hif
        simp only [anyOfFreeV] at ham
        have hszi : msizeF mi < msizeF f := dec_items (by rw [hHR]; exact hi)
        have hmiidem := IH mi hszi hcm.1 hcm.2 ham
        have hr : sanitizeFields f =
            setField (defaultStep (constStep f)) "items" (.obj (sanitizeFields mi)) := by
          have h0 := sf_eq_i (f := f) (by rw [hHR]; exact hp) (by rw [hHR]; exact hi)
          rw [hHR] at h0
          exact h0
        rw [hr]
        apply sanitizeFields_fixpoint
        · exact pairwise_setField hsg _ _
        · rw [lookup_set_ne (by decide)]; exact hcg
        · intro v hv
          rw [lookup_set_ne (by decide)] at hv
          exact hdg v hv
        · rw [lookup_set_ne (by decide)]; exact hag
        · intro props2 hp2
          rw [lookup_set_ne (by decide)] at hp2
          exact (hp props2 hp2).elim
        · intro mi2 hi2
          rw [lookup_set_self] at hi2
          have h2 : sanitizeFields mi = mi2 := by
            injection hi2 with h3
            exact JValue.obj.inj h3
          rw [← h2]
          exact hmiidem
      case _ =>
        have hr : sanitizeFields f = defaultStep (constStep f) := by
          have h0 := sf_eq_none (f := f) (by rw [hHR]; exact hp)
            (by rw [hHR]; exact hi)
          rw [hHR] at h0
          exact h0
        rw [hr]
        apply sanitizeFields_fixpoint hsg hcg hdg hag
        · intro props2 hp2
          exact (hp props2 hp2).elim
        · intro mi2 hi2
          exact (hi mi2 hi2).elim

/-! ### Claim C1 -/

/-- Claim C1, counterexample:  The sanitizer is *not* idempotent: on the
schema `{"anyOf": [{"type": "null"}, {"const": "x"}]}` one application
flattens the sole surviving `anyOf` branch to `{"const": "x"}` (the
`const → enum` rewrite has already run at that node), and a second
application rewrites it further to `{"enum": ["x"]}`. -/
theorem c1_counterexample :
    sanitizeSchemaForAnthropic (sanitizeSchemaForAnthropic
      (.obj [("anyOf", .arr [.obj [("type", .str "null")], .obj [("const", .str "x")]])])) ≠
    sanitizeSchemaForAnthropic
      (.obj [("anyOf", .arr [.obj [("type", .str "null")], .obj [("const", .str "x")]])]) := by
  have hA : sanitizeSchemaForAnthropic
      (.obj [("anyOf", .arr [.obj [("type", .str "null")], .obj [("const", .str "x")]])]) =
      JValue.obj [("const", JValue.str "x")] := by
    show JValue.obj (sanitizeFields _) = _
    rw [show sanitizeFields
        [("anyOf", .arr [.obj [("type", .str "null")], .obj [("const", .str "x")]])] =
        [("const", JValue.str "x")] from by unfold sanitizeFields; rfl]
  have hB : sanitizeSchemaForAnthropic (JValue.obj [("const", JValue.str "x")]) =
      JValue.obj [("enum", JValue.arr [JValue.str "x"])] := by
    show JValue.obj (sanitizeFields _) = _
    rw [show sanitizeFields [("const", JValue.str "x")] =
        [("enum", JValue.arr [JValue.str "x"])] from by unfold sanitizeFields; rfl]
  rw [hA, hB]
  simp

/-- Claim C1, amended:  `sanitize(sanitize(s)) = sanitize(s)` holds for every
canonical schema document `s` (key-sorted objects, the exact image of Go's
`json.Unmarshal` into `map[string]any`) in which no object node carries an
`anyOf` key.  With `anyOf` present the flattening of a sole surviving
branch can inline `const`/`default` keys after their own rewrites already
ran, so a second application changes the result (see the counterexample). -/
theorem c1_sanitize_idem_anyOfFree (s : JValue)
    (hc : canonV s = true) (ha : anyOfFreeV s = true) :
    sanitizeSchemaForAnthropic (sanitizeSchemaForAnthropic s) =
      sanitizeSchemaForAnthropic s := by
  cases s with
  | obj fs =>
    simp only [canonV, Bool.and_eq_true] at hc
    simp only [anyOfFreeV] at ha
    show JValue.obj (sanitizeFields (sanitizeFields fs)) = JValue.obj (sanitizeFields fs)
    rw [sanitizeFields_idem (msizeF fs) fs (le_refl _) hc.1 hc.2 ha]
  | null => rfl
  | bool b => rfl
  | num n => rfl
  | str s2 => rfl
  | arr xs => rfl

/-- Claim C1, witness for the amended theorem at the concrete canonical,
anyOf-free schema `{"const": "x"}`. -/
theorem c1_witness :
    canonV (.obj [("const", .str "x")]) = true ∧
    anyOfFreeV (.obj [("const", .str "x")]) = true ∧
    sanitizeSchemaForAnthropic (sanitizeSchemaForAnthropic (.obj [("const", .str "x")])) =
      sanitizeSchemaForAnthropic (.obj [("const", .str "x")]) := by
  refine ⟨?h1, ?h2, ?h3⟩
  case h1 => rfl
  case h2 => rfl
  case h3 => exact c1_sanitize_idem_anyOfFree _ rfl rfl

/-! ### The canonical (genai / ADK) request model

Embedding of the `genai` / `model.LLMRequest` types as used by both
translators.  Only the fields the translators read are modelled; the
float-valued generation parameters (temperature, top-p) are orthogonal
plumbing copied verbatim and are omitted. -/

/-- Embedded `genai.FunctionCall`: id, name, and an argument map (`map[string]any`). -/
structure FunctionCall where
  id : String := ""
  name : String := ""
  args : JFields := []

/-- Embedded `genai.FunctionResponse`: call id and an arbitrary JSON response value. -/
structure FunctionResponse where
  id : String := ""
  response : JValue := .null

/-- Embedded `genai.Part`: a Go struct that may simultaneously carry text, a thought
marker, a function call and a function response (the translators test each
field separately). -/
structure GPart where
  text : String := ""
  thought : Bool := false
  functionCall : Option FunctionCall := none
  functionResponse : Option FunctionResponse := none

/-- Embedded `genai.Content`: a role together with its parts. -/
structure GContent where
  role : String := ""
  parts : List GPart := []

/-- Embedded `genai.FunctionDeclaration`: the two alternative parameter schemas. -/
structure FunctionDeclaration where
  name : String := ""
  description : String := ""
  parameters : Option JValue := none
  parametersJsonSchema : Option JValue := none

/-- Embedded `genai.Tool`: a bundle of function declarations. -/
structure GTool where
  functionDeclarations : List FunctionDeclaration := []

/-- Embedded `genai.ThinkingLevel` (a string enum in Go; `unset` is the zero value,
and any unrecognized string behaves like it in the translators' switch). -/
inductive ThinkingLevel where
  | low
  | medium
  | high
  | unset

/-- Embedded `genai.ThinkingConfig`. -/
structure ThinkingConfig where
  thinkingLevel : ThinkingLevel := .unset

/-- The slice of `genai.GenerateContentConfig` the translators read. -/
structure GenConfig where
  systemInstruction : Option GContent := none
  thinkingConfig : Option ThinkingConfig := none
  tools : List (Option GTool) := []
  maxOutputTokens : Int := 0
  stopSequences : List String := []

/-- Embedded `model.LLMRequest`: contents plus optional config. -/
structure LLMRequest where
  contents : List GContent := []
  config : Option GenConfig := none

/-! ### The Anthropic translator (`src/unnamed/part_001`) -/

/-- Anthropic `ContentBlock` (wire JSON; `input`/`rawContent` carry raw
JSON bytes, modelled as their string form). -/
structure ContentBlock where
  type : String := ""
  text : String := ""
  id : String := ""
  name : String := ""
  input : Option String := none
  toolUseId : String := ""
  rawContent : Option String := none

/-- Anthropic `Message`: role plus content blocks. -/
structure Message where
  role : String := ""
  content : List ContentBlock := []

/-- Anthropic `Tool` definition. -/
structure ATool where
  name : String := ""
  description : String := ""
  inputSchema : String := ""

/-- Anthropic `MessagesRequest` (float fields omitted). -/
structure MessagesRequest where
  model : String := ""
  maxTokens : Int := 4096
  system : String := ""
  messages : List Message := []
  tools : List ATool := []
  stopSequences : List String := []

/-- Embedded `toToolResultContent`: a string response is JSON-encoded once; any
other value is JSON-encoded and the resulting text JSON-encoded again. -/
def toToolResultContent (resp : JValue) : String :=
  match resp with
  | .str s => jsonEncode (.str s)
  | v => jsonEncode (.str (jsonEncode v))

/-- Embedded `extractTextFromContent` (package `anthropic`): join the non-empty,
non-thought texts with newlines; a nil content yields the empty string. -/
def extractTextFromContent (content : Option GContent) : String :=
  match content with
  | none => ""
  | some c =>
    String.intercalate "\n"
      (c.parts.filterMap (fun p =>
        if p.text != "" && !p.thought then some p.text else none))

/-- The blocks one `genai.Part` contributes inside `toAnthropicMessages`:
thought parts are skipped entirely; otherwise text, `tool_use` and
`tool_result` blocks are emitted in source order. -/
def partBlocks (p : GPart) : List ContentBlock :=
  if p.thought then []
  else
    (if p.text != "" then [{ type := "text", text := p.text }] else [])
    ++ (match p.functionCall with
        | some fc => [{ type := "tool_use", id := fc.id, name := fc.name,
                        input := some (jsonEncode (.obj fc.args)) }]
        | none => [])
    ++ (match p.functionResponse with
        | some fr => [{ type := "tool_result", toolUseId := fr.id,
                        rawContent := some (toToolResultContent fr.response) }]
        | none => [])

/-- Append a message, merging it into the last message when the roles
coincide (`msgs[len(msgs)-1].Content = append(...)`). -/
def pushMerge : List Message → Message → List Message
  | [], m => [m]
  | [last], m =>
    if last.role = m.role then
      [{ role := last.role, content := last.content ++ m.content }]
    else [last, m]
  | x :: y :: rest, m => x :: pushMerge (y :: rest) m

/-- Embedded `toAnthropicMessages`: map roles (`model → assistant`, anything else →
`user`), skip contents whose block list is empty, and merge consecutive
messages of equal role. -/
def toAnthropicMessages (contents : List GContent) : List Message :=
  contents.foldl (fun msgs content =>
    let role := if content.role = "model" then "assistant" else "user"
    let blocks := (content.parts.map partBlocks).join
    if blocks.isEmpty then msgs
    else pushMerge msgs { role := role, content := blocks }) []

/-- Embedded `convertTools` inner loop over one tool's function declarations:
`ParametersJsonSchema` wins over `Parameters`; a nil schema is a fatal
translation error; schemas are marshalled and run through the sanitizer
(whose parse failure is non-fatal and returns the input unchanged). -/
def convertToolDecls : List FunctionDeclaration → Except String (List ATool)
  | [] => .ok []
  | fd :: rest =>
    match (match fd.parametersJsonSchema with
           | some s => some s
           | none => fd.parameters) with
    | none => .error ("parameters is nil for tool " ++ fd.name)
    | some s => do
      let schemaJSON := jsonEncode (sanitizeSchemaForAnthropic s)
      let tail ← convertToolDecls rest
      .ok ({ name := fd.name, description := fd.description,
             inputSchema := schemaJSON } :: tail)

/-- Embedded `convertTools`: nil tools are skipped; declarations are flattened in
order, aborting on the first nil parameter schema. -/
def convertTools : List (Option GTool) → Except String (List ATool)
  | [] => .ok []
  | none :: rest => convertTools rest
  | some gt :: rest => do
    let head ← convertToolDecls gt.functionDeclarations
    let tail ← convertTools rest
    .ok (head ++ tail)

/-- The system-instruction downgrade of `toAnthropicRequest`: with native
system-role support the text goes to the top-level field; otherwise it is
merged into a first `user` message or prepended as a fresh one. -/
def applySystemText (systemText : String) (noSystemRole : Bool)
    (msgs : List Message) : String × List Message :=
  if systemText != "" then
    if !noSystemRole then (systemText, msgs)
    else
      (match msgs with
       | first :: rest =>
         if first.role = "user" then
           ("", { role := first.role,
                  content := { type := "text", text := systemText } :: first.content } :: rest)
         else ("", { role := "user",
                     content := [{ type := "text", text := systemText }] } :: msgs)
       | [] => ("", [{ role := "user",
                       content := [{ type := "text", text := systemText }] }]))
  else ("", msgs)

/-- Embedded `toAnthropicRequest`: system extraction, message conversion, the
system downgrade, tool conversion (fatal on nil schema) and the scalar
config fields. -/
def toAnthropicRequest (req : LLMRequest) (modelName : String)
    (noSystemRole : Bool) : Except String MessagesRequest := do
  let systemText := match req.config with
    | some cfg => extractTextFromContent cfg.systemInstruction
    | none => ""
  let msgs0 := toAnthropicMessages req.contents
  let sysMsgs := applySystemText systemText noSystemRole msgs0
  let tools ← match req.config with
    | some cfg =>
      if cfg.tools.length > 0 then convertTools cfg.tools else .ok []
    | none => .ok ([] : List ATool)
  let maxTokens := match req.config with
    | some cfg => if cfg.maxOutputTokens > 0 then cfg.maxOutputTokens else 4096
    | none => 4096
  let stop := match req.config with
    | some cfg => cfg.stopSequences
    | none => []
  .ok { model := modelName, maxTokens := maxTokens, system := sysMsgs.1,
        messages := sysMsgs.2, tools := tools, stopSequences := stop }

/-! ### Claim C2 -/

/-- Claim C2:  Every `FunctionResponsePart` translated for Anthropic gets a
`tool_result` content that is a JSON string: a response that is already a
string is JSON-encoded once, any other value is JSON-encoded and the
resulting JSON text JSON-encoded again; in particular `{"ok":true}`
renders as the string `"{\"ok\":true}"` and `"done"` as `"done"`'s
one-level encoding `"\"done\""` (six characters, quotes included). -/
theorem c2_tool_result_content :
    (∀ s : String, toToolResultContent (.str s) = jsonEncode (.str s)) ∧
    (∀ v : JValue, (∀ s, v ≠ .str s) →
      toToolResultContent v = jsonEncode (.str (jsonEncode v))) ∧
    toToolResultContent (.obj [("ok", .bool true)]) = "\"\x7b\\\"ok\\\":true\x7d\"" ∧
    toToolResultContent (.str "done") = "\"done\"" := by
  refine ⟨fun s => rfl, ?_, rfl, rfl⟩
  intro v hv
  cases v with
  | str s => exact (hv s rfl).elim
  | null => rfl
  | bool b => rfl
  | num n => rfl
  | arr xs => rfl
  | obj fs => rfl

/-- Claim C2, witness: the double-encoding branch applied at the concrete
non-string value `true`. -/
theorem c2_witness :
    toToolResultContent (.bool true) = jsonEncode (.str (jsonEncode (.bool true))) :=
  c2_tool_result_content.2.1 (.bool true) (fun s h => JValue.noConfusion h)

/-! ### Claim C4 -/

/-- Appending through `pushMerge` keeps the head role of a non-empty list. -/
theorem pushMerge_cons (y : Message) (rest : List Message) (m : Message) :
    ∃ c tl, pushMerge (y :: rest) m = { role := y.role, content := c } :: tl := by
  cases rest with
  | nil =>
    simp only [pushMerge]
    split
    · exact ⟨y.content ++ m.content, [], rfl⟩
    · exact ⟨y.content, [m], rfl⟩
  | cons z rest2 =>
    exact ⟨y.content, pushMerge (z :: rest2) m, rfl⟩

/-- Embedded `pushMerge` preserves the no-two-consecutive-equal-roles invariant. -/
theorem pushMerge_chain {msgs : List Message} {m : Message}
    (h : msgs.Chain' (fun a b => a.role ≠ b.role)) :
    (pushMerge msgs m).Chain' (fun a b => a.role ≠ b.role) := by
  induction msgs with
  | nil => simp [pushMerge]
  | cons x rest ih =>
    cases rest with
    | nil =>
      simp only [pushMerge]
      split
      · simp
      · next hne => simp [hne]
    | cons y rest2 =>
      rw [List.chain'_cons] at h
      have ih2 := ih h.2
      obtain ⟨c, tl, he⟩ := pushMerge_cons y rest2 m
      show List.Chain' _ (x :: pushMerge (y :: rest2) m)
      rw [he] at ih2 ⊢
      rw [List.chain'_cons]
      exact ⟨h.1, ih2⟩

/-- The message list built by `toAnthropicMessages` never has two
consecutive messages of equal role. -/
theorem toAnthropicMessages_chain (contents : List GContent) :
    (toAnthropicMessages contents).Chain' (fun a b => a.role ≠ b.role) := by
  suffices h : ∀ msgs : List Message, msgs.Chain' (fun a b => a.role ≠ b.role) →
      (contents.foldl (fun msgs content =>
        let role := if content.role = "model" then "assistant" else "user"
        let blocks := (content.parts.map partBlocks).join
        if blocks.isEmpty then msgs
        else pushMerge msgs { role := role, content := blocks }) msgs).Chain'
        (fun a b => a.role ≠ b.role) by
    exact h [] (by simp)
  induction contents with
  | nil => intro msgs hm; simpa using hm
  | cons c rest ih =>
    intro msgs hm
    simp only [List.foldl_cons]
    apply ih
    split
    · exact hm
    · exact pushMerge_chain hm

/-- The system-instruction downgrade preserves the invariant. -/
theorem applySystemText_chain (systemText : String) (noSystemRole : Bool)
    {msgs : List Message} (h : msgs.Chain' (fun a b => a.role ≠ b.role)) :
    (applySystemText systemText noSystemRole msgs).2.Chain'
      (fun a b => a.role ≠ b.role) := by
  unfold applySystemText
  split
  · split
    · exact h
    · split
      · next first rest =>
        split
        · cases rest with
          | nil => simp
          | cons y rest2 =>
            rw [List.chain'_cons] at h ⊢
            exact h
        · next hne =>
          rw [List.chain'_cons]
          refine ⟨?_, h⟩
          exact fun hu => hne hu.symm
      · simp
  · exact h

/-- Claim C4:  For every request, the Anthropic translator's message list —
including after the system-instruction downgrade to a synthetic leading
user message — never contains two consecutive messages of the same role. -/
theorem c4_no_consecutive_roles (req : LLMRequest) (modelName : String)
    (noSystemRole : Bool) (ar : MessagesRequest)
    (h : toAnthropicRequest req modelName noSystemRole = .ok ar) :
    ar.messages.Chain' (fun a b => a.role ≠ b.role) := by
  unfold toAnthropicRequest at h
  have hbase := toAnthropicMessages_chain req.contents
  cases hcfg : req.config with
  | none =>
    rw [hcfg] at h
    simp only [Except.bind, bind, pure] at h
    cases h
    exact applySystemText_chain _ _ hbase
  | some cfg =>
    rw [hcfg] at h
    simp only [Except.bind, bind, pure] at h
    split at h
    · cases hct : convertTools cfg.tools with
      | error e =>
        rw [hct] at h
        exact Except.noConfusion h
      | ok tools =>
        rw [hct] at h
        cases h
        exact applySystemText_chain _ _ hbase
    · cases h
      exact applySystemText_chain _ _ hbase

/-- Claim C4, witness: a concrete two-turn request with a system instruction
downgraded to a leading user message. -/
theorem c4_witness :
    (toAnthropicRequest
      { contents := [{ role := "user", parts := [{ text := "hi" }] },
                     { role := "model", parts := [{ text := "hello" }] }],
        config := some
          ({ systemInstruction :=
             some ({ role := "system", parts := [{ text := "be brief" }] }) }) }
      "m" true = .ok
        { model := "m", maxTokens := 4096, system := "",
          messages :=
            [{ role := "user", content := [{ type := "text", text := "be brief" },
                                           { type := "text", text := "hi" }] },
             { role := "assistant", content := [{ type := "text", text := "hello" }] }],
          tools := [], stopSequences := [] }) ∧
    ([{ role := "user", content := [{ type := "text", text := "be brief" },
                                    { type := "text", text := "hi" }] },
      { role := "assistant", content := [{ type := "text", text := "hello" }] }]
        : List Message).Chain' (fun a b => a.role ≠ b.role) := by
  constructor
  · rfl
  · have := c4_no_consecutive_roles
      { contents := [{ role := "user", parts := [{ text := "hi" }] },
                     { role := "model", parts := [{ text := "hello" }] }],
        config := some
          ({ systemInstruction :=
             some ({ role := "system", parts := [{ text := "be brief" }] }) }) }
      "m" true
      { model := "m", maxTokens := 4096, system := "",
        messages :=
          [{ role := "user", content := [{ type := "text", text := "be brief" },
                                         { type := "text", text := "hi" }] },
           { role := "assistant", content := [{ type := "text", text := "hello" }] }],
        tools := [], stopSequences := [] }
      (by rfl)
    exact this

/-! ### A JSON parser

Executable model of `encoding/json` unmarshalling into `any` /
`map[string]any`, used by the spec-modelled `parseJSONArgs` and by the SSE
event decoding.  Objects are built with `setField`, giving the canonical
key-sorted, last-key-wins representation of a Go map.  Numbers are
restricted to integers (no value in this development uses fractions). -/

/-- Leading JSON whitespace removal. -/
def skipWs : List Char → List Char
  | c :: rest =>
    if c = ' ' ∨ c = '\t' ∨ c = '\n' ∨ c = '\r' then skipWs rest else c :: rest
  | [] => []

/-- One hexadecimal digit. -/
def parseHexDigit (c : Char) : Option Nat :=
  if 48 ≤ c.toNat ∧ c.toNat ≤ 57 then some (c.toNat - 48)
  else if 97 ≤ c.toNat ∧ c.toNat ≤ 102 then some (c.toNat - 87)
  else if 65 ≤ c.toNat ∧ c.toNat ≤ 70 then some (c.toNat - 55)
  else none

/-- Decimal digit test. -/
def isDigitCh (c : Char) : Bool := 48 ≤ c.toNat && c.toNat ≤ 57

/-- Longest digit run. -/
def takeDigits : List Char → List Char × List Char
  | [] => ([], [])
  | c :: rest =>
    if isDigitCh c then
      let (ds, rem) := takeDigits rest
      (c :: ds, rem)
    else ([], c :: rest)

/-- Digit run to number. -/
def digitsToNat (ds : List Char) : Nat :=
  ds.foldl (fun acc c => acc * 10 + (c.toNat - 48)) 0

/-- Body of a JSON string after the opening quote, handling the standard
escapes (`\uXXXX` decoded as a single code unit; surrogate pairing is not
modelled, no input in this development needs it). -/
def parseStringBody : Nat → List Char → Option (List Char × List Char)
  | 0, _ => none
  | _, [] => none
  | fuel + 1, c :: rest =>
    if c = '"' then some ([], rest)
    else if c = '\\' then
      match rest with
      | [] => none
      | e :: rest2 =>
        let dec : Option (Char × List Char) :=
          if e = '"' then some ('"', rest2)
          else if e = '\\' then some ('\\', rest2)
          else if e = '/' then some ('/', rest2)
          else if e = 'b' then some (Char.ofNat 8, rest2)
          else if e = 'f' then some (Char.ofNat 12, rest2)
          else if e = 'n' then some ('\n', rest2)
          else if e = 'r' then some ('\r', rest2)
          else if e = 't' then some ('\t', rest2)
          else if e = 'u' then
            match rest2 with
            | h1 :: h2 :: h3 :: h4 :: rest3 =>
              match parseHexDigit h1, parseHexDigit h2,
                  parseHexDigit h3, parseHexDigit h4 with
              | some a, some b, some c2, some d =>
                some (Char.ofNat (a * 4096 + b * 256 + c2 * 16 + d), rest3)
              | _, _, _, _ => none
            | _ => none
          else none
        match dec with
        | some (ch, rest3) =>
          (parseStringBody fuel rest3).map (fun pr => (ch :: pr.1, pr.2))
        | none => none
    else (parseStringBody fuel rest).map (fun pr => (c :: pr.1, pr.2))

mutual

/-- One JSON value. -/
def parseVal : Nat → List Char → Option (JValue × List Char)
  | 0, _ => none
  | fuel + 1, cs =>
    match skipWs cs with
    | [] => none
    | c :: rest =>
      if c = 'n' then
        match rest with
        | 'u' :: 'l' :: 'l' :: r => some (.null, r)
        | _ => none
      else if c = 't' then
        match rest with
        | 'r' :: 'u' :: 'e' :: r => some (.bool true, r)
        | _ => none
      else if c = 'f' then
        match rest with
        | 'a' :: 'l' :: 's' :: 'e' :: r => some (.bool false, r)
        | _ => none
      else if c = '"' then
        (parseStringBody fuel rest).map (fun pr => (.str (String.mk pr.1), pr.2))
      else if c = '-' then
        match takeDigits rest with
        | ([], _) => none
        | (ds, rem) => some (.num (-(digitsToNat ds : Int)), rem)
      else if isDigitCh c then
        match takeDigits (c :: rest) with
        | (ds, rem) => some (.num (digitsToNat ds), rem)
      else if c = '[' then
        parseArr fuel rest
      else if c = '\x7b' then
        parseObj fuel rest
      else none

/-- Array body after `[`. -/
def parseArr : Nat → List Char → Option (JValue × List Char)
  | 0, _ => none
  | fuel + 1, cs =>
    match skipWs cs with
    | ']' :: r => some (.arr [], r)
    | cs2 =>
      match parseVal fuel cs2 with
      | none => none
      | some (v, rem) =>
        match parseArrTail fuel rem with
        | some (vs, rem2) => some (.arr (v :: vs), rem2)
        | none => none

/-- Array elements after the first. -/
def parseArrTail : Nat → List Char → Option (List JValue × List Char)
  | 0, _ => none
  | fuel + 1, cs =>
    match skipWs cs with
    | ']' :: r => some ([], r)
    | ',' :: r =>
      match parseVal fuel r with
      | none => none
      | some (v, rem) =>
        match parseArrTail fuel rem with
        | some (vs, rem2) => some (v :: vs, rem2)
        | none => none
    | _ => none

/-- Object body after an opening brace.  The members are written into an
empty map in textual order, so a later duplicate key wins, as for a Go
map. -/
def parseObj : Nat → List Char → Option (JValue × List Char)
  | 0, _ => none
  | fuel + 1, cs =>
    match skipWs cs with
    | '\x7d' :: r => some (.obj [], r)
    | cs2 =>
      match parseMember fuel cs2 with
      | none => none
      | some (k, v, rem) =>
        match parseObjTail fuel rem with
        | some (ms, rem2) =>
          some (.obj (((k, v) :: ms).foldl (fun acc m => setField acc m.1 m.2) []), rem2)
        | none => none

/-- Object members after the first, in textual order. -/
def parseObjTail : Nat → List Char → Option (List (String × JValue) × List Char)
  | 0, _ => none
  | fuel + 1, cs =>
    match skipWs cs with
    | '\x7d' :: r => some ([], r)
    | ',' :: r =>
      match parseMember fuel r with
      | none => none
      | some (k, v, rem) =>
        match parseObjTail fuel rem with
        | some (ms, rem2) => some ((k, v) :: ms, rem2)
        | none => none
    | _ => none

/-- One `"key": value` member. -/
def parseMember : Nat → List Char → Option (String × JValue × List Char)
  | 0, _ => none
  | fuel + 1, cs =>
    match skipWs cs with
    | '"' :: r =>
      match parseStringBody fuel r with
      | none => none
      | some (kcs, rem) =>
        match skipWs rem with
        | ':' :: rem2 =>
          match parseVal fuel rem2 with
          | none => none
          | some (v, rem3) => some (String.mk kcs, v, rem3)
        | _ => none
    | _ => none

end

/-- Full-document parse, Go `json.Unmarshal` style (trailing whitespace
only). -/
def jsonParse (s : String) : Option JValue :=
  match parseVal (2 * s.length + 16) s.data with
  | some (v, rem) => if (skipWs rem).isEmpty then some v else none
  | none => none

/-! ### The OpenAI Responses translator (`model_factory.go`, package `openai`) -/

/-- Embedded `ResponsesInputItem` (wire JSON); `content` is `any` in Go but the
translator only ever writes a string into it. -/
structure ResponsesInputItem where
  role : String := ""
  content : String := ""
  type : String := ""
  callId : String := ""
  output : String := ""
  id : String := ""
  name : String := ""
  arguments : String := ""

/-- Embedded `ResponsesTool` (flattened tool definition; `parameters` is `any` and
may be nil). -/
structure ResponsesTool where
  type : String := ""
  name : String := ""
  description : String := ""
  parameters : Option JValue := none
  strict : Bool := false

/-- Embedded `ResponsesReasoning`. -/
structure ResponsesReasoning where
  effort : String := ""

/-- Embedded `CreateResponseRequest` (float fields omitted). -/
structure CreateResponseRequest where
  model : String := ""
  input : List ResponsesInputItem := []
  instructions : String := ""
  tools : List ResponsesTool := []
  stream : Bool := false
  maxOutputTokens : Int := 0
  stop : List String := []
  reasoning : Option ResponsesReasoning := none

/-- Modelled from the spec: the `openai` package's
`extractTextFromContent` helper is referenced by `toResponsesRequest` but
its definition is not among the provided sources.  Per §4.1 (system
instruction maps to a top-level field) and the §3 invariant that
thought-marked text is never transmitted, it joins the non-thought texts
exactly like the Anthropic helper of the same name. -/
def extractTextFromContentR (content : Option GContent) : String :=
  extractTextFromContent content

/-- Embedded `convertRoleForResponses`. -/
def convertRoleForResponses (role : String) : String :=
  if role = "user" then "user"
  else if role = "model" then "assistant"
  else if role = "system" then "system"
  else "user"

/-- The `function_call_output` wire item for one `FunctionResponsePart`. -/
def frOutputItem (fr : FunctionResponse) : ResponsesInputItem :=
  { type := "function_call_output", callId := fr.id, output := jsonEncode fr.response }

/-- The `function_call` wire item for one `FunctionCallPart`. -/
def fcCallItem (fc : FunctionCall) : ResponsesInputItem :=
  { type := "function_call", id := fc.id, callId := fc.id, name := fc.name,
    arguments := jsonEncode (.obj fc.args) }

/-- Embedded `toResponsesInputItem`: pass 1 appends one `function_call_output` per
function response, in part order; pass 2 concatenates non-thought text and
collects `function_call` items from the parts that carry no function
response; then the message item (iff the text is non-empty) and the call
items are appended. -/
def toResponsesInputItem (content : GContent) : List ResponsesInputItem :=
  let items1 := content.parts.foldl (fun acc p =>
    match p.functionResponse with
    | some fr => acc ++ [frOutputItem fr]
    | none => acc) []
  let textContent := content.parts.foldl (fun acc p =>
    if p.functionResponse.isSome then acc
    else if p.text != "" && !p.thought then acc ++ p.text
    else acc) ""
  let toolCallItems := content.parts.foldl (fun acc p =>
    if p.functionResponse.isSome then acc
    else
      match p.functionCall with
      | some fc => acc ++ [fcCallItem fc]
      | none => acc) []
  let items2 :=
    if textContent != "" then
      items1 ++ [{ role := convertRoleForResponses content.role, content := textContent }]
    else items1
  items2 ++ toolCallItems

/-- Embedded `toResponsesInputItems`. -/
def toResponsesInputItems (contents : List GContent) : List ResponsesInputItem :=
  (contents.map toResponsesInputItem).join

/-- Embedded `convertResponsesTools`: nil tools are skipped, declarations flatten
in order; `ParametersJsonSchema` wins over `Parameters`, and a nil schema
is passed through as nil — this function has no error path. -/
def convertResponsesTools (genaiTools : List (Option GTool)) : List ResponsesTool :=
  genaiTools.foldl (fun acc t =>
    match t with
    | none => acc
    | some gt =>
      acc ++ gt.functionDeclarations.map (fun fd =>
        { type := "function", name := fd.name, description := fd.description,
          parameters :=
            match fd.parametersJsonSchema with
            | some s => some s
            | none => fd.parameters })) []

/-- Embedded `toResponsesRequest` (float config fields omitted; marshalling of the
modelled JSON values cannot fail, so the translation is total and is
wrapped in `Except` only to mirror the Go signature). -/
def toResponsesRequest (req : LLMRequest) (modelName : String) :
    Except String CreateResponseRequest :=
  let inputItems := toResponsesInputItems req.contents
  match req.config with
  | none => .ok { model := modelName, input := inputItems }
  | some cfg =>
    .ok { model := modelName, input := inputItems,
          instructions := extractTextFromContentR cfg.systemInstruction,
          reasoning :=
            match cfg.thinkingConfig with
            | some tc =>
              some { effort :=
                match tc.thinkingLevel with
                | .low => "low"
                | .high => "high"
                | _ => "medium" }
            | none => none,
          tools :=
            if cfg.tools.length > 0 then convertResponsesTools cfg.tools else [],
          maxOutputTokens :=
            if cfg.maxOutputTokens > 0 then cfg.maxOutputTokens else 0,
          stop := cfg.stopSequences }

/-! ### The OpenAI Responses response parser -/

/-- Embedded `ResponsesContentPart`. -/
structure ResponsesContentPart where
  type : String := ""
  text : String := ""

/-- Embedded `ResponsesOutputItem`. -/
structure ResponsesOutputItem where
  type : String := ""
  id : String := ""
  status : String := ""
  role : String := ""
  content : List ResponsesContentPart := []
  name : String := ""
  callId : String := ""
  arguments : String := ""

/-- Embedded `ResponsesUsage`. -/
structure ResponsesUsage where
  inputTokens : Int := 0
  outputTokens : Int := 0
  totalTokens : Int := 0

/-- Embedded `CreateResponseResponse`. -/
structure CreateResponseResponse where
  id : String := ""
  object : String := ""
  createdAt : Int := 0
  status : String := ""
  model : String := ""
  output : List ResponsesOutputItem := []
  outputText : String := ""
  usage : Option ResponsesUsage := none

/-- Embedded `genai.GenerateContentResponseUsageMetadata` (the three counters). -/
structure UsageMetadata where
  promptTokenCount : Int := 0
  candidatesTokenCount : Int := 0
  totalTokenCount : Int := 0

/-- Embedded `genai.FinishReason` (the values this code produces). -/
inductive FinishReason where
  | stop
  | maxTokens
  | unspecified

/-- Embedded `model.LLMResponse` (the fields this code writes). -/
structure LLMResponse where
  content : Option GContent := none
  usageMetadata : Option UsageMetadata := none
  finishReason : FinishReason := .unspecified
  partialFlag : Bool := false
  turnComplete : Bool := false

/-- Modelled from the spec: `parseJSONArgs` is called by
`convertResponsesResponse` and the stream aggregator but its definition is
not among the provided sources.  Per §4.3, the argument string is parsed
as JSON into a key/value map; on parse failure an empty map is substituted
and a warning is recorded (the Boolean is the warning flag).  A JSON
`null` unmarshals into a nil map without error. -/
def parseJSONArgsW (s : String) : JFields × Bool :=
  match jsonParse s with
  | some (.obj fs) => (fs, false)
  | some .null => ([], false)
  | _ => ([], true)

/-- Modelled from the spec: the argument map of `parseJSONArgs`. -/
def parseJSONArgs (s : String) : JFields :=
  (parseJSONArgsW s).1

/-- Embedded `convertResponsesResponse`: an empty output list is a fatal
`ErrNoChoicesInResponse`; `message` items contribute their `output_text`
parts as text and `reasoning` parts as thought text (anything else,
`refusal` included, contributes nothing); `function_call` items become
function-call parts with spec-modelled argument parsing.  The second
component collects the non-fatal warnings. -/
def convertResponsesResponse (resp : CreateResponseResponse) :
    Except String (LLMResponse × List String) :=
  if resp.output.isEmpty then .error "no choices in response"
  else
    let pw := resp.output.foldl (fun (acc : List GPart × List String) item =>
      if item.type = "message" then
        (acc.1 ++ item.content.foldl (fun acc2 part =>
          if part.type = "output_text" then acc2 ++ [{ text := part.text }]
          else if part.type = "reasoning" then
            acc2 ++ [{ text := part.text, thought := true }]
          else acc2) [],
         acc.2)
      else if item.type = "function_call" then
        let ar := parseJSONArgsW item.arguments
        let fcPart : GPart :=
          { functionCall := some { id := item.callId, name := item.name, args := ar.1 } }
        (acc.1 ++ [fcPart],
         acc.2 ++ (if ar.2 then ["parse function call arguments failed"] else []))
      else acc) ([], [])
    .ok ({ content := some { role := "model", parts := pw.1 },
           usageMetadata := resp.usage.map (fun u =>
             { promptTokenCount := u.inputTokens,
               candidatesTokenCount := u.outputTokens,
               totalTokenCount := u.totalTokens }),
           finishReason := .stop,
           turnComplete := true }, pw.2)

/-! ### SSE event decoding (`json.Unmarshal` into the event structs)

Each decoder returns `none` exactly when Go's `Unmarshal` would error
(non-object JSON, or a declared field of the wrong type); a missing field
yields the zero value, an unknown field is ignored, and JSON `null` into a
struct, slice or pointer leaves the zero value. -/

/-- Read a declared string field. -/
def jStr (fs : JFields) (k : String) : Option String :=
  match lookupField fs k with
  | none => some ""
  | some (.str s) => some s
  | some .null => some ""
  | some _ => none

/-- Read a declared integer field. -/
def jInt (fs : JFields) (k : String) : Option Int :=
  match lookupField fs k with
  | none => some 0
  | some (.num n) => some n
  | some .null => some 0
  | some _ => none

/-- Embedded `ResponsesTextDelta` decoding. -/
structure ResponsesTextDelta where
  itemId : String := ""
  outputIndex : Int := 0
  contentIndex : Int := 0
  delta : String := ""

def decodeTextDelta (v : JValue) : Option ResponsesTextDelta :=
  match v with
  | .obj fs => do
    let _ ← jStr fs "type"
    let itemId ← jStr fs "item_id"
    let oi ← jInt fs "output_index"
    let ci ← jInt fs "content_index"
    let d ← jStr fs "delta"
    some { itemId := itemId, outputIndex := oi, contentIndex := ci, delta := d }
  | _ => none

/-- Embedded `ResponsesFuncCallArgsDelta` decoding. -/
structure ResponsesFuncCallArgsDelta where
  itemId : String := ""
  outputIndex : Int := 0
  delta : String := ""

def decodeFuncArgsDelta (v : JValue) : Option ResponsesFuncCallArgsDelta :=
  match v with
  | .obj fs => do
    let _ ← jStr fs "type"
    let itemId ← jStr fs "item_id"
    let oi ← jInt fs "output_index"
    let d ← jStr fs "delta"
    some { itemId := itemId, outputIndex := oi, delta := d }
  | _ => none

def decodeContentPart (v : JValue) : Option ResponsesContentPart :=
  match v with
  | .obj fs => do
    let t ← jStr fs "type"
    let tx ← jStr fs "text"
    some { type := t, text := tx }
  | _ => none

def decodeOutputItem (v : JValue) : Option ResponsesOutputItem :=
  match v with
  | .null => some {}
  | .obj fs => do
    let t ← jStr fs "type"
    let id ← jStr fs "id"
    let st ← jStr fs "status"
    let ro ← jStr fs "role"
    let co ← (match lookupField fs "content" with
      | none => some []
      | some (.arr xs) => xs.mapM decodeContentPart
      | some .null => some []
      | some _ => none)
    let nm ← jStr fs "name"
    let ci ← jStr fs "call_id"
    let ar ← jStr fs "arguments"
    some { type := t, id := id, status := st, role := ro, content := co,
           name := nm, callId := ci, arguments := ar }
  | _ => none

/-- Embedded `ResponsesOutputItemAdded` / `ResponsesOutputItemDone` decoding:
`output_index` plus the embedded item. -/
def decodeOutputItemEvent (v : JValue) : Option (Int × ResponsesOutputItem) :=
  match v with
  | .obj fs => do
    let _ ← jStr fs "type"
    let oi ← jInt fs "output_index"
    let it ← (match lookupField fs "item" with
      | none => some {}
      | some iv => decodeOutputItem iv)
    some (oi, it)
  | _ => none

def decodeUsage (v : JValue) : Option ResponsesUsage :=
  match v with
  | .obj fs => do
    let it ← jInt fs "input_tokens"
    let ot ← jInt fs "output_tokens"
    let tt ← jInt fs "total_tokens"
    some { inputTokens := it, outputTokens := ot, totalTokens := tt }
  | _ => none

def decodeCreateResponseResponse (v : JValue) : Option CreateResponseResponse :=
  match v with
  | .null => some {}
  | .obj fs => do
    let id ← jStr fs "id"
    let ob ← jStr fs "object"
    let ca ← jInt fs "created_at"
    let st ← jStr fs "status"
    let md ← jStr fs "model"
    let out ← (match lookupField fs "output" with
      | none => some []
      | some (.arr xs) => xs.mapM decodeOutputItem
      | some .null => some []
      | some _ => none)
    let ot ← jStr fs "output_text"
    let us ← (match lookupField fs "usage" with
      | none => some none
      | some .null => some none
      | some uv => (decodeUsage uv).map some)
    some { id := id, object := ob, createdAt := ca, status := st, model := md,
           output := out, outputText := ot, usage := us }
  | _ => none

/-- Embedded `ResponsesCompleted` decoding. -/
def decodeCompleted (v : JValue) : Option CreateResponseResponse :=
  match v with
  | .obj fs => do
    let _ ← jStr fs "type"
    match lookupField fs "response" with
    | none => some {}
    | some rv => decodeCreateResponseResponse rv
  | _ => none

/-! ### The stream aggregator (`processResponsesStream`)

The Go loop scans the body line by line; the model takes the line list.
The consumer is modelled as never stopping, so the result is the full list
of emitted responses.  `toolCallsMap` is a Go map iterated in unspecified
order when the final response is assembled; the model keeps insertion
order. -/

/-- Embedded `responsesToolCallBuilder`. -/
structure ToolCallBuilder where
  itemId : String := ""
  callId : String := ""
  name : String := ""
  args : String := ""

/-- Lookup in the builder map. -/
def lookupTCB : List (String × ToolCallBuilder) → String → Option ToolCallBuilder
  | [], _ => none
  | (k', b) :: rest, k => if k = k' then some b else lookupTCB rest k

/-- Map write: overwrite in place or append a new binding. -/
def putTCB : List (String × ToolCallBuilder) → String → ToolCallBuilder →
    List (String × ToolCallBuilder)
  | [], k, b => [(k, b)]
  | (k', b') :: rest, k, b =>
    if k = k' then (k', b) :: rest else (k', b') :: putTCB rest k b

/-- In-place mutation of an existing builder (`builder.args += ...`). -/
def modifyTCB : List (String × ToolCallBuilder) → String →
    (ToolCallBuilder → ToolCallBuilder) → List (String × ToolCallBuilder)
  | [], _, _ => []
  | (k', b') :: rest, k, f =>
    if k = k' then (k', f b') :: rest else (k', b') :: modifyTCB rest k f

/-- Aggregation state of `processResponsesStream`. -/
structure StreamState where
  textContent : String := ""
  toolCalls : List (String × ToolCallBuilder) := []
  usage : Option UsageMetadata := none
  currentEventType : String := ""

/-- Embedded `handleTextDelta`: on a decodable event, extend the running text and
emit one partial response carrying just this delta. -/
def handleTextDelta (data : String) (st : StreamState) :
    StreamState × List LLMResponse :=
  match (jsonParse data).bind decodeTextDelta with
  | none => (st, [])
  | some d =>
    ({ st with textContent := st.textContent ++ d.delta },
     [{ content := some { role := "model", parts := [{ text := d.delta }] },
        partialFlag := true, turnComplete := false }])

/-- Embedded `handleFuncArgsDelta`: append to an existing builder's buffer; with no
builder for the item id the delta is dropped. -/
def handleFuncArgsDelta (data : String) (st : StreamState) : StreamState :=
  match (jsonParse data).bind decodeFuncArgsDelta with
  | none => st
  | some d =>
    match lookupTCB st.toolCalls d.itemId with
    | some _ =>
      let tc := modifyTCB st.toolCalls d.itemId (fun b => { b with args := b.args ++ d.delta })
      { st with toolCalls := tc }
    | none => st

/-- Embedded `handleOutputItemAdded`: function-call items open a fresh builder. -/
def handleOutputItemAdded (data : String) (st : StreamState) : StreamState :=
  match (jsonParse data).bind decodeOutputItemEvent with
  | none => st
  | some (_, item) =>
    if item.type = "function_call" then
      let b : ToolCallBuilder := { itemId := item.id, callId := item.callId, name := item.name }
      { st with toolCalls := putTCB st.toolCalls item.id b }
    else st

/-- Embedded `handleOutputItemDone`: refresh call id and name; a non-empty final
argument string overrides the buffer; an unseen item id opens a builder
directly from the done event. -/
def handleOutputItemDone (data : String) (st : StreamState) : StreamState :=
  match (jsonParse data).bind decodeOutputItemEvent with
  | none => st
  | some (_, item) =>
    if item.type = "function_call" then
      match lookupTCB st.toolCalls item.id with
      | some _ =>
        let upd := fun (b : ToolCallBuilder) =>
          let newArgs := if item.arguments != "" then item.arguments else b.args
          { b with callId := item.callId, name := item.name, args := newArgs }
        { st with toolCalls := modifyTCB st.toolCalls item.id upd }
      | none =>
        let b : ToolCallBuilder :=
          { itemId := item.id, callId := item.callId, name := item.name,
            args := item.arguments }
        { st with toolCalls := putTCB st.toolCalls item.id b }
    else st

/-- Embedded `handleCompleted`: capture the usage counters (last write wins). -/
def handleCompleted (data : String) (st : StreamState) : StreamState :=
  match (jsonParse data).bind decodeCompleted with
  | none => st
  | some resp =>
    match resp.usage with
    | some u =>
      let um : UsageMetadata :=
        { promptTokenCount := u.inputTokens,
          candidatesTokenCount := u.outputTokens,
          totalTokenCount := u.totalTokens }
      { st with usage := some um }
    | none => st

/-- Go `strings.CutPrefix` on character lists. -/
def dropPrefixCL : List Char → List Char → Option (List Char)
  | [], s => some s
  | _, [] => none
  | p :: ps, c :: cs => if c = p then dropPrefixCL ps cs else none

/-- Go `strings.CutPrefix`. -/
def cutPrefixStr (pre s : String) : Option String :=
  (dropPrefixCL pre.data s.data).map String.mk

/-- One iteration of the scanner loop: an `event: ` line records the event
type; a non-`data: ` or empty-data line is skipped (keeping the pending
event type); a data line dispatches on the recorded type — unrecognized
types are ignored — and then resets the event type. -/
def processLine (acc : StreamState × List LLMResponse) (line : String) :
    StreamState × List LLMResponse :=
  let st := acc.1
  match cutPrefixStr "event: " line with
  | some t => ({ st with currentEventType := t }, acc.2)
  | none =>
    match cutPrefixStr "data: " line with
    | none => acc
    | some d =>
      if d = "" then acc
      else
        let dispatched :=
          if st.currentEventType = "response.output_text.delta" then
            handleTextDelta d st
          else if st.currentEventType = "response.function_call_arguments.delta" then
            (handleFuncArgsDelta d st, [])
          else if st.currentEventType = "response.output_item.added" then
            (handleOutputItemAdded d st, [])
          else if st.currentEventType = "response.output_item.done" then
            (handleOutputItemDone d st, [])
          else if st.currentEventType = "response.completed" then
            (handleCompleted d st, [])
          else (st, [])
        ({ dispatched.1 with currentEventType := "" }, acc.2 ++ dispatched.2)

/-- Embedded `processResponsesStream`: fold the lines, then emit the final
aggregated response — accumulated text (if non-empty) followed by one
function-call part per builder, usage from the completion event,
finishReason Stop, partial=false, turnComplete=true. -/
def processResponsesStream (lines : List String) : List LLMResponse :=
  let folded := lines.foldl processLine ({}, [])
  let st := folded.1
  let textParts : List GPart :=
    if st.textContent != "" then [{ text := st.textContent }] else []
  let callParts : List GPart := st.toolCalls.map (fun kb =>
    let fc : FunctionCall :=
      { id := kb.2.callId, name := kb.2.name, args := parseJSONArgs kb.2.args }
    { functionCall := some fc })
  let finalContent : GContent := { role := "model", parts := textParts ++ callParts }
  let final : LLMResponse :=
    { content := some finalContent, usageMetadata := st.usage,
      finishReason := .stop, partialFlag := false, turnComplete := true }
  folded.2 ++ [final]

/-! ### Claim C3 -/

/-- The scripted SSE line sequence of claim C3: added(item A, call-id
"c1", name "f"), two argument deltas forming `{"a":1}`, then done(item A). -/
def c3Script : List String :=
  [ "event: response.output_item.added",
    "data: \x7b\"item\":\x7b\"type\":\"function_call\",\"id\":\"A\",\"call_id\":\"c1\",\"name\":\"f\"\x7d\x7d",
    "event: response.function_call_arguments.delta",
    "data: \x7b\"item_id\":\"A\",\"delta\":\"\x7b\\\"a\\\":\"\x7d",
    "event: response.function_call_arguments.delta",
    "data: \x7b\"item_id\":\"A\",\"delta\":\"1\x7d\"\x7d",
    "event: response.output_item.done",
    "data: \x7b\"item\":\x7b\"type\":\"function_call\",\"id\":\"A\",\"call_id\":\"c1\",\"name\":\"f\"\x7d\x7d" ]

/-- The non-streaming wire response equivalent to the scripted stream: a
single function-call output item with the same call id, name and the
complete argument string. -/
def c3Single : CreateResponseResponse :=
  { output := [{ type := "function_call", id := "A", callId := "c1", name := "f",
                 arguments := "\x7b\"a\":1\x7d" }] }

/-- The expected canonical function-call part of claim C3. -/
def c3Part : GPart :=
  { functionCall := some { id := "c1", name := "f", args := [("a", .num 1)] } }

/-- Claim C3:  Streaming the scripted sequence yields exactly one (final)
response whose single part is `FunctionCallPart{id:"c1", name:"f",
args:{"a":1}}`, and the non-streaming parser produces the identical part
for the equivalent single function-call output item. -/
theorem c3_stream_matches_parse :
    processResponsesStream c3Script =
      [{ content := some { role := "model", parts := [c3Part] },
         usageMetadata := none, finishReason := .stop,
         partialFlag := false, turnComplete := true }] ∧
    convertResponsesResponse c3Single =
      .ok ({ content := some { role := "model", parts := [c3Part] },
             usageMetadata := none, finishReason := .stop,
             partialFlag := false, turnComplete := true }, []) := by
  exact ⟨rfl, rfl⟩

/-! ### Claim C9 -/

/-- The event types the aggregator dispatches on. -/
def recognizedEventTypes : List String :=
  [ "response.output_text.delta",
    "response.function_call_arguments.delta",
    "response.output_item.added",
    "response.output_item.done",
    "response.completed" ]

theorem cutPrefixStr_eq {pre s t : String} (h : cutPrefixStr pre s = some t) :
    s = pre ++ t := by
  unfold cutPrefixStr at h
  cases hd : dropPrefixCL pre.data s.data with
  | none => rw [hd] at h; simp at h
  | some rest =>
    rw [hd] at h
    simp only [Option.map_some'] at h
    cases h
    have key : ∀ (p q : List Char), dropPrefixCL p q = some rest → q = p ++ rest := by
      intro p
      induction p with
      | nil =>
        intro q hq
        simp only [dropPrefixCL] at hq
        cases hq
        rfl
      | cons a ps ih =>
        intro q hq
        cases q with
        | nil => simp [dropPrefixCL] at hq
        | cons c cs =>
          simp only [dropPrefixCL] at hq
          split at hq
          · next hc =>
            subst hc
            rw [List.cons_append, ih cs hq]
          · exact absurd hq (by simp)
    have h2 := key pre.data s.data hd
    have h3 : s = String.mk s.data := rfl
    rw [h3, h2]
    rfl

theorem processLine_event {st : StreamState} {out : List LLMResponse} {line t : String}
    (hev : cutPrefixStr "event: " line = some t) :
    processLine (st, out) line = ({ st with currentEventType := t }, out) := by
  unfold processLine
  rw [hev]

theorem processLine_nodata {st : StreamState} {out : List LLMResponse} {line : String}
    (hev : cutPrefixStr "event: " line = none)
    (hdt : cutPrefixStr "data: " line = none) :
    processLine (st, out) line = (st, out) := by
  unfold processLine
  rw [hev, hdt]

theorem processLine_blank {st : StreamState} {out : List LLMResponse} {line : String}
    (hev : cutPrefixStr "event: " line = none)
    (hdt : cutPrefixStr "data: " line = some "") :
    processLine (st, out) line = (st, out) := by
  unfold processLine
  rw [hev, hdt]
  simp

theorem processLine_unrecognized {st : StreamState} {out : List LLMResponse}
    {line d : String}
    (hev : cutPrefixStr "event: " line = none)
    (hdt : cutPrefixStr "data: " line = some d) (hd : ¬(d = ""))
    (hcur : ∀ t ∈ recognizedEventTypes, st.currentEventType ≠ t) :
    processLine (st, out) line = ({ st with currentEventType := "" }, out) := by
  unfold processLine
  rw [hev, hdt]
  have c1 := hcur "response.output_text.delta" (by simp [recognizedEventTypes])
  have c2 := hcur "response.function_call_arguments.delta" (by simp [recognizedEventTypes])
  have c3 := hcur "response.output_item.added" (by simp [recognizedEventTypes])
  have c4 := hcur "response.output_item.done" (by simp [recognizedEventTypes])
  have c5 := hcur "response.completed" (by simp [recognizedEventTypes])
  simp [hd, c1, c2, c3, c4, c5]

/-- Folding lines that never announce a recognized event type leaves the
aggregation state empty and emits nothing. -/
theorem c9_fold (lines : List String)
    (h : ∀ l ∈ lines, ∀ t ∈ recognizedEventTypes, l ≠ "event: " ++ t) :
    ∀ (st : StreamState) (out : List LLMResponse),
      st.textContent = "" → st.toolCalls = [] → st.usage = none →
      (∀ t ∈ recognizedEventTypes, st.currentEventType ≠ t) →
      (lines.foldl processLine (st, out)).1.textContent = "" ∧
      (lines.foldl processLine (st, out)).1.toolCalls = [] ∧
      (lines.foldl processLine (st, out)).1.usage = none ∧
      (lines.foldl processLine (st, out)).2 = out := by
  induction lines with
  | nil => intro st out h1 h2 h3 h4; exact ⟨h1, h2, h3, rfl⟩
  | cons l rest ih =>
    intro st out h1 h2 h3 h4
    have hl := h l (List.mem_cons_self _ _)
    have hrest : ∀ l2 ∈ rest, ∀ t ∈ recognizedEventTypes, l2 ≠ "event: " ++ t :=
      fun l2 hm => h l2 (List.mem_cons_of_mem _ hm)
    simp only [List.foldl_cons]
    cases hev : cutPrefixStr "event: " l with
    | some t =>
      have hte : l = "event: " ++ t := cutPrefixStr_eq hev
      have htn : ∀ t2 ∈ recognizedEventTypes, t ≠ t2 := by
        intro t2 hm heq
        exact hl t2 hm (by rw [hte, heq])
      rw [processLine_event hev]
      exact ih hrest _ _ h1 h2 h3 htn
    | none =>
      cases hdt : cutPrefixStr "data: " l with
      | none =>
        rw [processLine_nodata hev hdt]
        exact ih hrest _ _ h1 h2 h3 h4
      | some d =>
        by_cases hde : d = ""
        · subst hde
          rw [processLine_blank hev hdt]
          exact ih hrest _ _ h1 h2 h3 h4
        · rw [processLine_unrecognized hev hdt hde h4]
          refine ih hrest _ _ h1 h2 h3 ?_
          have hnot : ∀ t2 ∈ recognizedEventTypes, ("" : String) ≠ t2 := by decide
          intro t2 hm
          exact hnot t2 hm

/-- Claim C9:  A stream with no recognized events — the empty body in
particular — still makes the aggregator emit exactly one final canonical
response: empty part list, no usage, finishReason Stop, partial=false,
turnComplete=true; the non-streaming parser, in contrast, fails on an
empty output array. -/
theorem c9_unrecognized_stream (lines : List String)
    (h : ∀ l ∈ lines, ∀ t ∈ recognizedEventTypes, l ≠ "event: " ++ t) :
    processResponsesStream lines =
      [{ content := some { role := "model", parts := [] },
         usageMetadata := none, finishReason := .stop,
         partialFlag := false, turnComplete := true }] ∧
    convertResponsesResponse { output := [] } = .error "no choices in response" := by
  constructor
  · have hnot : ∀ t2 ∈ recognizedEventTypes, ("" : String) ≠ t2 := by decide
    have hf := c9_fold lines h {} [] rfl rfl rfl (fun t2 hm => hnot t2 hm)
    obtain ⟨h1, h2, h3, h4⟩ := hf
    unfold processResponsesStream
    simp only [h1, h2, h3, h4]
    rfl
  · rfl

/-- Claim C9, witness: the empty body. -/
theorem c9_witness :
    processResponsesStream [] =
      [{ content := some { role := "model", parts := [] },
         usageMetadata := none, finishReason := .stop,
         partialFlag := false, turnComplete := true }] ∧
    convertResponsesResponse { output := [] } = .error "no choices in response" :=
  c9_unrecognized_stream [] (by intro l hl; simp at hl)

/-! ### Claim C10 -/

/-- Remove the `refusal` content parts from every `message` output item. -/
def dropRefusalParts (resp : CreateResponseResponse) : CreateResponseResponse :=
  { resp with output := resp.output.map (fun item =>
      if item.type = "message" then
        { item with content := item.content.filter (fun p => p.type ≠ "refusal") }
      else item) }

theorem message_fold_drop_refusal (content : List ResponsesContentPart) :
    ∀ acc : List GPart,
      (content.filter (fun p => p.type ≠ "refusal")).foldl (fun acc2 part =>
        if part.type = "output_text" then acc2 ++ [{ text := part.text }]
        else if part.type = "reasoning" then
          acc2 ++ [{ text := part.text, thought := true }]
        else acc2) acc =
      content.foldl (fun acc2 part =>
        if part.type = "output_text" then acc2 ++ [{ text := part.text }]
        else if part.type = "reasoning" then
          acc2 ++ [{ text := part.text, thought := true }]
        else acc2) acc := by
  induction content with
  | nil => intro acc; rfl
  | cons p rest ih =>
    intro acc
    by_cases hr : p.type = "refusal"
    · rw [List.filter_cons]
      rw [if_neg (by simp [hr])]
      simp only [List.foldl_cons]
      rw [if_neg (by rw [hr]; decide), if_neg (by rw [hr]; decide)]
      exact ih acc
    · rw [List.filter_cons]
      rw [if_pos (by simp [hr])]
      simp only [List.foldl_cons]
      exact ih _

theorem output_fold_drop_refusal (items : List ResponsesOutputItem) :
    ∀ acc : List GPart × List String,
      (items.map (fun item =>
        if item.type = "message" then
          { item with content := item.content.filter (fun p => p.type ≠ "refusal") }
        else item)).foldl (fun acc item =>
          if item.type = "message" then
            (acc.1 ++ item.content.foldl (fun acc2 part =>
              if part.type = "output_text" then acc2 ++ [{ text := part.text }]
              else if part.type = "reasoning" then
                acc2 ++ [{ text := part.text, thought := true }]
              else acc2) [],
             acc.2)
          else if item.type = "function_call" then
            let ar := parseJSONArgsW item.arguments
            let fcPart : GPart :=
              { functionCall := some { id := item.callId, name := item.name, args := ar.1 } }
            (acc.1 ++ [fcPart],
             acc.2 ++ (if ar.2 then ["parse function call arguments failed"] else []))
          else acc) acc =
      items.foldl (fun acc item =>
          if item.type = "message" then
            (acc.1 ++ item.content.foldl (fun acc2 part =>
              if part.type = "output_text" then acc2 ++ [{ text := part.text }]
              else if part.type = "reasoning" then
                acc2 ++ [{ text := part.text, thought := true }]
              else acc2) [],
             acc.2)
          else if item.type = "function_call" then
            let ar := parseJSONArgsW item.arguments
            let fcPart : GPart :=
              { functionCall := some { id := item.callId, name := item.name, args := ar.1 } }
            (acc.1 ++ [fcPart],
             acc.2 ++ (if ar.2 then ["parse function call arguments failed"] else []))
          else acc) acc := by
  induction items with
  | nil => intro acc; rfl
  | cons item rest ih =>
    intro acc
    simp only [List.map_cons, List.foldl_cons]
    by_cases hm : item.type = "message"
    · rw [if_pos hm]
      simp only [if_pos hm]
      rw [message_fold_drop_refusal]
      exact ih _
    · rw [if_neg hm]
      exact ih _

/-- Claim C10:  The non-streaming Responses parser silently drops `refusal`
content parts: deleting them from every message item changes neither the
canonical response nor the warning list nor the error behaviour, so they
contribute nothing and produce no error or warning. -/
theorem c10_refusal_dropped (resp : CreateResponseResponse) :
    convertResponsesResponse (dropRefusalParts resp) = convertResponsesResponse resp := by
  unfold convertResponsesResponse dropRefusalParts
  by_cases he : resp.output.isEmpty
  · cases houtput : resp.output with
    | nil => simp
    | cons a rest => rw [houtput] at he; simp at he
  · rw [if_neg (by simpa using he)]
    rw [if_neg (by simpa using he)]
    rw [output_fold_drop_refusal]

/-! ### Claim C6 -/

/-- Concatenation of a list of strings (Go `+=` over a loop). -/
def concatStrs (l : List String) : String := l.foldr (fun s acc => s ++ acc) ""

/-- The text a part contributes in pass 2 of `toResponsesInputItem`. -/
def pass2Text (p : GPart) : String :=
  if p.functionResponse.isSome then ""
  else if p.text != "" && !p.thought then p.text
  else ""

theorem frOutputs_foldl (parts : List GPart) :
    ∀ acc : List ResponsesInputItem,
      parts.foldl (fun acc p =>
        match p.functionResponse with
        | some fr => acc ++ [frOutputItem fr]
        | none => acc) acc
      = acc ++ parts.filterMap (fun p => p.functionResponse.map frOutputItem) := by
  induction parts with
  | nil => intro acc; simp
  | cons p rest ih =>
    intro acc
    simp only [List.foldl_cons, List.filterMap_cons]
    cases hfr : p.functionResponse with
    | none =>
      simp only [hfr, Option.map_none']
      exact ih acc
    | some fr =>
      simp only [hfr, Option.map_some']
      rw [ih, List.append_assoc]
      rfl

theorem pass2Text_foldl (parts : List GPart) :
    ∀ acc : String,
      parts.foldl (fun acc p =>
        if p.functionResponse.isSome then acc
        else if p.text != "" && !p.thought then acc ++ p.text
        else acc) acc = acc ++ concatStrs (parts.map pass2Text) := by
  induction parts with
  | nil =>
    intro acc
    show acc = acc ++ ""
    rw [String.append_empty]
  | cons p rest ih =>
    intro acc
    simp only [List.foldl_cons, List.map_cons]
    have hjoin : concatStrs (pass2Text p :: rest.map pass2Text) =
        pass2Text p ++ concatStrs (rest.map pass2Text) := rfl
    rw [hjoin]
    have hz : ("" : String) ++ concatStrs (rest.map pass2Text) =
        concatStrs (rest.map pass2Text) := rfl
    by_cases hf : p.functionResponse.isSome
    · have hp : pass2Text p = "" := by unfold pass2Text; rw [if_pos hf]
      rw [hp, hz, if_pos hf]
      exact ih acc
    · by_cases ht : (p.text != "" && !p.thought) = true
      · have hp : pass2Text p = p.text := by
          unfold pass2Text; rw [if_neg hf, if_pos ht]
        rw [hp, if_neg hf, if_pos ht, ih, String.append_assoc]
      · have hp : pass2Text p = "" := by
          unfold pass2Text; rw [if_neg hf, if_neg ht]
        rw [hp, hz, if_neg hf, if_neg ht]
        exact ih acc

theorem toolCalls_foldl (parts : List GPart) :
    ∀ acc : List ResponsesInputItem,
      parts.foldl (fun acc p =>
        if p.functionResponse.isSome then acc
        else
          match p.functionCall with
          | some fc => acc ++ [fcCallItem fc]
          | none => acc) acc
      = acc ++ parts.filterMap (fun p =>
          if p.functionResponse.isSome then none
          else p.functionCall.map fcCallItem) := by
  induction parts with
  | nil => intro acc; simp
  | cons p rest ih =>
    intro acc
    simp only [List.foldl_cons, List.filterMap_cons]
    by_cases hf : p.functionResponse.isSome
    · simp only [if_pos hf]
      exact ih acc
    · simp only [if_neg hf]
      cases hfc : p.functionCall with
      | none =>
        simp only [Option.map_none']
        exact ih acc
      | some fc =>
        simp only [Option.map_some']
        rw [ih, List.append_assoc]
        rfl

/-- Claim C6:  For every turn, the Provider A wire items are exactly: one
`function_call_output` per `FunctionResponsePart` in part order, then one
message item carrying the concatenated non-thought text iff that
concatenation is non-empty, then one `function_call` per
`FunctionCallPart` (of the parts carrying no function response), in part
order. -/
theorem c6_item_order (c : GContent) :
    toResponsesInputItem c =
      c.parts.filterMap (fun p => p.functionResponse.map frOutputItem)
      ++ (if concatStrs (c.parts.map pass2Text) != "" then
            [{ role := convertRoleForResponses c.role,
               content := concatStrs (c.parts.map pass2Text) }]
          else [])
      ++ c.parts.filterMap (fun p =>
            if p.functionResponse.isSome then none
            else p.functionCall.map fcCallItem) := by
  unfold toResponsesInputItem
  rw [frOutputs_foldl, pass2Text_foldl, toolCalls_foldl]
  rw [List.nil_append, List.nil_append]
  have hempty : ("" : String) ++ concatStrs (c.parts.map pass2Text) =
      concatStrs (c.parts.map pass2Text) := rfl
  rw [hempty]
  by_cases hne : (concatStrs (c.parts.map pass2Text) != "") = true
  · simp only [hne, if_true, List.append_assoc]
  · simp only [hne, Bool.false_eq_true, if_false, List.append_nil]

/-! ### Claim C7 -/

/-- Claim C7, counterexample:  A request whose reasoning effort is unset —
its config carries no thinking configuration at all — translates
successfully with *no* reasoning field on the wire, not with effort
"medium" as the claim states. -/
theorem c7_counterexample :
    (toResponsesRequest { contents := [], config := some ({}) } "m").map
      (fun r => r.reasoning) = .ok none ∧
    (toResponsesRequest { contents := [], config := some ({}) } "m").map
      (fun r => r.reasoning) ≠ .ok (some { effort := "medium" }) := by
  constructor
  · rfl
  · intro h
    rw [show (toResponsesRequest { contents := [], config := some ({}) } "m").map
        (fun r => r.reasoning) = .ok none from rfl] at h
    simp at h

/-- Claim C7, amended:  When a thinking configuration is present, low and
high map to the wire efforts "low" and "high" and any other level
(including an unset level) maps to "medium"; when the request carries no
thinking configuration (or no config at all) no reasoning effort is
emitted. -/
theorem c7_reasoning_effort (req : LLMRequest) (modelName : String)
    (r : CreateResponseRequest) (h : toResponsesRequest req modelName = .ok r) :
    r.reasoning =
      match req.config with
      | none => none
      | some cfg =>
        match cfg.thinkingConfig with
        | none => none
        | some tc =>
          some { effort :=
            match tc.thinkingLevel with
            | .low => "low"
            | .high => "high"
            | _ => "medium" } := by
  unfold toResponsesRequest at h
  cases hcfg : req.config with
  | none =>
    rw [hcfg] at h
    cases h
    rfl
  | some cfg =>
    rw [hcfg] at h
    cases h
    cases htc : cfg.thinkingConfig with
    | none => simp only [htc]
    | some tc => simp only [htc]

/-- Claim C7, witness at a request with thinking level high. -/
theorem c7_witness :
    ({ model := "m", input := [], instructions := "",
       reasoning := some { effort := "high" } } : CreateResponseRequest).reasoning =
      some { effort := "high" } := by
  have h := c7_reasoning_effort
    { contents := [], config := some ({ thinkingConfig := some ({ thinkingLevel := .high }) }) }
    "m"
    { model := "m", input := [], instructions := "",
      reasoning := some { effort := "high" } }
    rfl
  exact h

/-! ### Claim C8 -/

/-- A tool list containing a declaration with no parameter schema at all. -/
def badTools : List (Option GTool) :=
  [some { functionDeclarations :=
    [{ name := "t", description := "", parameters := none,
       parametersJsonSchema := none }] }]

/-- Claim C8, counterexample:  On a request declaring a tool whose parameter
schema is missing, the Provider A (Responses) translator does **not**
fail: it succeeds and emits the tool with a nil parameters field, contrary
to the claim that each provider's translator fails with a
TranslationError. -/
theorem c8_counterexample :
    toResponsesRequest { contents := [], config := some ({ tools := badTools }) } "m" =
      .ok { model := "m", input := [], instructions := "",
            tools := [{ type := "function", name := "t", description := "",
                        parameters := none }] } := by
  rfl

theorem convertToolDecls_error {decls : List FunctionDeclaration}
    (h : ∃ fd ∈ decls, fd.parametersJsonSchema = none ∧ fd.parameters = none) :
    ∃ e, convertToolDecls decls = .error e := by
  induction decls with
  | nil => simp at h
  | cons fd rest ih =>
    obtain ⟨fd2, hm, h1, h2⟩ := h
    rcases List.mem_cons.mp hm with hm | hm
    · subst hm
      refine ⟨"parameters is nil for tool " ++ fd2.name, ?_⟩
      unfold convertToolDecls
      rw [h1, h2]
    · unfold convertToolDecls
      cases hs : (match fd.parametersJsonSchema with
                  | some s => some s
                  | none => fd.parameters) with
      | none => exact ⟨_, rfl⟩
      | some s =>
        obtain ⟨e, he⟩ := ih ⟨fd2, hm, h1, h2⟩
        refine ⟨e, ?_⟩
        simp only [Except.bind, bind, he]

theorem convertTools_error {tools : List (Option GTool)}
    (h : ∃ gt ∈ tools, ∃ g, gt = some g ∧
      ∃ fd ∈ g.functionDeclarations, fd.parametersJsonSchema = none ∧ fd.parameters = none) :
    ∃ e, convertTools tools = .error e := by
  induction tools with
  | nil => simp at h
  | cons t rest ih =>
    obtain ⟨gt, hm, g, hg, fd, hfd, h1, h2⟩ := h
    rcases List.mem_cons.mp hm with heq | hmem
    · subst heq
      subst hg
      obtain ⟨e, he⟩ := convertToolDecls_error ⟨fd, hfd, h1, h2⟩
      refine ⟨e, ?_⟩
      unfold convertTools
      simp only [Except.bind, bind, he]
    · clear hm
      cases t with
      | none =>
        obtain ⟨e, he⟩ := ih ⟨gt, hmem, g, hg, fd, hfd, h1, h2⟩
        exact ⟨e, by unfold convertTools; exact he⟩
      | some g2 =>
        unfold convertTools
        cases hd : convertToolDecls g2.functionDeclarations with
        | error e => exact ⟨e, by simp only [Except.bind, bind, hd]⟩
        | ok head =>
          obtain ⟨e, he⟩ := ih ⟨gt, hmem, g, hg, fd, hfd, h1, h2⟩
          refine ⟨e, ?_⟩
          simp only [Except.bind, bind, hd, he]

/-- Claim C8, amended:  When a tool declaration's parameter schema is
missing (both schema fields nil), the Provider B (Anthropic) translator
fails with a TranslationError before any request is sent; the Provider A
(Responses) translator never fails — it emits the tool with a nil
parameters field (`convertResponsesTools` has no error path). -/
theorem c8_nil_schema (req : LLMRequest) (cfg : GenConfig)
    (hcfg : req.config = some cfg)
    (hbad : ∃ gt ∈ cfg.tools, ∃ g, gt = some g ∧
      ∃ fd ∈ g.functionDeclarations,
        fd.parametersJsonSchema = none ∧ fd.parameters = none)
    (modelName : String) (noSystemRole : Bool) :
    (∃ e, toAnthropicRequest req modelName noSystemRole = .error e) ∧
    (∃ r, toResponsesRequest req modelName = .ok r) := by
  constructor
  · obtain ⟨e, he⟩ := convertTools_error hbad
    refine ⟨e, ?_⟩
    unfold toAnthropicRequest
    rw [hcfg]
    have hlen : cfg.tools.length > 0 := by
      obtain ⟨gt, hm, _⟩ := hbad
      cases htl : cfg.tools with
      | nil => rw [htl] at hm; simp at hm
      | cons a rest => simp [htl]
    simp only [if_pos hlen, he, Except.bind, bind]
  · unfold toResponsesRequest
    rw [hcfg]
    exact ⟨_, rfl⟩

/-- Claim C8, witness at the concrete bad tool list. -/
theorem c8_witness :
    (∃ e, toAnthropicRequest { contents := [], config := some ({ tools := badTools }) }
      "m" false = .error e) ∧
    (∃ r, toResponsesRequest { contents := [], config := some ({ tools := badTools }) }
      "m" = .ok r) := by
  have h := c8_nil_schema
    { contents := [], config := some ({ tools := badTools }) }
    { tools := badTools } rfl
    ⟨some { functionDeclarations :=
        [{ name := "t", description := "", parameters := none,
           parametersJsonSchema := none }] },
      by simp [badTools],
      { functionDeclarations :=
        [{ name := "t", description := "", parameters := none,
           parametersJsonSchema := none }] }, rfl,
      { name := "t", description := "", parameters := none,
        parametersJsonSchema := none },
      by simp, rfl, rfl⟩
    "m" false
  exact h

/-! ### Claim C5 -/

theorem foldl_congr_fn {α β : Type} {f g : β → α → β} (h : ∀ b a, f b a = g b a) :
    ∀ (l : List α) (b : β), l.foldl f b = l.foldl g b := by
  intro l
  induction l with
  | nil => intro b; rfl
  | cons a rest ih =>
    intro b
    simp only [List.foldl_cons]
    rw [h b a, ih]

/-- Replace the text of every thought-marked part by `t` (non-thought
parts are untouched).  The translated wire output never changing under
this replacement — for any `t` — is exactly the statement that
thought-part text is never transmitted. -/
def setThoughtText (t : String) (p : GPart) : GPart :=
  if p.thought then { p with text := t } else p

/-- Lift the replacement to a content. -/
def mapThoughtContent (t : String) (c : GContent) : GContent :=
  { c with parts := c.parts.map (setThoughtText t) }

/-- Lift the replacement to a whole request (turns and system
instruction). -/
def mapThoughtTextReq (t : String) (req : LLMRequest) : LLMRequest :=
  { contents := req.contents.map (mapThoughtContent t),
    config := req.config.map (fun cfg =>
      { cfg with systemInstruction := cfg.systemInstruction.map (mapThoughtContent t) }) }

theorem setThoughtText_thought (t : String) (p : GPart) :
    (setThoughtText t p).thought = p.thought := by
  unfold setThoughtText
  split <;> rfl

theorem setThoughtText_functionResponse (t : String) (p : GPart) :
    (setThoughtText t p).functionResponse = p.functionResponse := by
  unfold setThoughtText
  split <;> rfl

theorem setThoughtText_functionCall (t : String) (p : GPart) :
    (setThoughtText t p).functionCall = p.functionCall := by
  unfold setThoughtText
  split <;> rfl

theorem setThoughtText_partBlocks (t : String) (p : GPart) :
    partBlocks (setThoughtText t p) = partBlocks p := by
  unfold setThoughtText partBlocks
  by_cases hp : p.thought
  · simp [hp]
  · simp [hp]

theorem setThoughtText_textSel (t : String) (p : GPart) :
    (if (setThoughtText t p).text != "" && !(setThoughtText t p).thought then
       some (setThoughtText t p).text else none) =
    (if p.text != "" && !p.thought then some p.text else none) := by
  unfold setThoughtText
  by_cases hp : p.thought
  · simp [hp]
  · simp [hp]

theorem extract_mapThought (t : String) (c : Option GContent) :
    extractTextFromContent (c.map (mapThoughtContent t)) = extractTextFromContent c := by
  cases c with
  | none => rfl
  | some c2 =>
    unfold extractTextFromContent mapThoughtContent
    simp only [Option.map_some']
    congr 1
    show (c2.parts.map (setThoughtText t)).filterMap _ = c2.parts.filterMap _
    induction c2.parts with
    | nil => rfl
    | cons p rest ih =>
      simp only [List.map_cons, List.filterMap_cons]
      rw [setThoughtText_textSel]
      cases hsel : (if p.text != "" && !p.thought then some p.text else none) with
      | none => exact ih
      | some s => rw [ih]

theorem toAnthropicMessages_mapThought (t : String) (contents : List GContent) :
    toAnthropicMessages (contents.map (mapThoughtContent t)) =
      toAnthropicMessages contents := by
  unfold toAnthropicMessages
  rw [List.foldl_map]
  apply foldl_congr_fn
  intro msgs c
  unfold mapThoughtContent
  simp only [List.map_map]
  have hblocks : (c.parts.map (partBlocks ∘ setThoughtText t)).join =
      (c.parts.map partBlocks).join := by
    congr 1
    apply List.map_congr_left
    intro p hp
    exact setThoughtText_partBlocks t p
  simp only [hblocks]

theorem toResponsesInputItem_mapThought (t : String) (c : GContent) :
    toResponsesInputItem (mapThoughtContent t c) = toResponsesInputItem c := by
  unfold toResponsesInputItem mapThoughtContent
  simp only []
  have h1 : ∀ acc : List ResponsesInputItem,
      (c.parts.map (setThoughtText t)).foldl (fun acc p =>
        match p.functionResponse with
        | some fr => acc ++ [frOutputItem fr]
        | none => acc) acc =
      c.parts.foldl (fun acc p =>
        match p.functionResponse with
        | some fr => acc ++ [frOutputItem fr]
        | none => acc) acc := by
    intro acc
    rw [List.foldl_map]
    apply foldl_congr_fn
    intro b p
    rw [setThoughtText_functionResponse]
  have h2 : ∀ acc : String,
      (c.parts.map (setThoughtText t)).foldl (fun acc p =>
        if p.functionResponse.isSome then acc
        else if p.text != "" && !p.thought then acc ++ p.text
        else acc) acc =
      c.parts.foldl (fun acc p =>
        if p.functionResponse.isSome then acc
        else if p.text != "" && !p.thought then acc ++ p.text
        else acc) acc := by
    intro acc
    rw [List.foldl_map]
    apply foldl_congr_fn
    intro b p
    rw [setThoughtText_functionResponse]
    by_cases hf : p.functionResponse.isSome
    · simp only [if_pos hf]
    · simp only [if_neg hf]
      unfold setThoughtText
      by_cases hp : p.thought
      · simp [hp]
      · simp [hp]
  have h3 : ∀ acc : List ResponsesInputItem,
      (c.parts.map (setThoughtText t)).foldl (fun acc p =>
        if p.functionResponse.isSome then acc
        else
          match p.functionCall with
          | some fc => acc ++ [fcCallItem fc]
          | none => acc) acc =
      c.parts.foldl (fun acc p =>
        if p.functionResponse.isSome then acc
        else
          match p.functionCall with
          | some fc => acc ++ [fcCallItem fc]
          | none => acc) acc := by
    intro acc
    rw [List.foldl_map]
    apply foldl_congr_fn
    intro b p
    rw [setThoughtText_functionResponse, setThoughtText_functionCall]
  rw [h1, h2, h3]

theorem toResponsesInputItems_mapThought (t : String) (contents : List GContent) :
    toResponsesInputItems (contents.map (mapThoughtContent t)) =
      toResponsesInputItems contents := by
  unfold toResponsesInputItems
  rw [List.map_map]
  congr 1
  apply List.map_congr_left
  intro c hc
  exact toResponsesInputItem_mapThought t c

/-- Claim C5:  Thought-marked text is never transmitted to either provider:
replacing the text of every thought part by an arbitrary string changes
neither the Anthropic request (messages, system field — including the
downgrade — tools) nor the Responses request (input items, instructions),
so no thought text can occur anywhere in the translated wire output. -/
theorem c5_thought_text_invariant (req : LLMRequest) (t : String)
    (modelName : String) (noSystemRole : Bool) :
    toAnthropicRequest (mapThoughtTextReq t req) modelName noSystemRole =
      toAnthropicRequest req modelName noSystemRole ∧
    toResponsesRequest (mapThoughtTextReq t req) modelName =
      toResponsesRequest req modelName := by
  constructor
  · unfold toAnthropicRequest mapThoughtTextReq
    cases hcfg : req.config with
    | none =>
      simp only [Option.map_none']
      rw [toAnthropicMessages_mapThought]
    | some cfg =>
      simp only [Option.map_some']
      rw [toAnthropicMessages_mapThought, extract_mapThought]
  · unfold toResponsesRequest mapThoughtTextReq
    cases hcfg : req.config with
    | none =>
      simp only [Option.map_none']
      rw [toResponsesInputItems_mapThought]
    | some cfg =>
      simp only [Option.map_some']
      rw [toResponsesInputItems_mapThought]
      unfold extractTextFromContentR
      rw [extract_mapThought]

end Jcp
